/-
Verification of the email-manager job-queue engine.

Shallow embedding of the queue engine of the repository:
- `calculateBackoff` from src/queue/memory-queue.ts:87-92 and
  src/queue/sqlite-queue.ts:339-343 (identical bodies), with
  `Math.random()` made an explicit parameter `rand` with 0 ≤ rand < 1.
- the token-bucket rate limiter and `configureGlobalRateLimit` from
  src/lib/rate-limiter.ts.
- `stop()` / `gracefulShutdown` waiting loops from
  src/queue/memory-queue.ts:291-298 and src/queue/sqlite-queue.ts:266-302,782-789,
  modelled over the sequence of `activeCount` values observed at each
  100 ms poll.
- the batch monitor from the batch-monitor source file
  (startBatch / recordSuccess / recordFailure / completeBatch).
- an event-loop semantics of the in-memory queue (memory-queue.ts) and of
  the SQLite queue (sqlite-queue.ts): JavaScript is single threaded, so a
  run of the program is a sequence of synchronous segments (API calls,
  timer callbacks, promise resolutions); each segment runs without
  interleaving up to its first `await`.  Each `Cmd` below is one such
  segment, embedded faithfully from the source.
-/
import Mathlib

namespace EmailManager

/-! ## Job status (types/queue.ts: 'pending' | 'processing' | 'completed' | 'failed' | 'retrying') -/

inductive Status where
  | pending
  | processing
  | completed
  | failed
  | retrying
deriving DecidableEq, Repr

/-! ## Backoff calculator

memory-queue.ts:87-92 / sqlite-queue.ts:339-343:
```
const baseDelay = config.retryDelay * 2 ** (attempt - 1)
const jitter = baseDelay * Math.random() * 0.25
return Math.min(baseDelay + jitter, config.maxRetryDelay)
```
`Math.random()` returns a value in [0, 1); it is the `rand` parameter. -/

def calculateBackoff (retryDelay maxRetryDelay : ℚ) (attempt : ℕ) (rand : ℚ) : ℚ :=
  let baseDelay := retryDelay * 2 ^ (attempt - 1)
  let jitter := baseDelay * rand * (1/4)
  min (baseDelay + jitter) maxRetryDelay

/-! ## Token-bucket rate limiter (lib/rate-limiter.ts) -/

structure RateLimiterConfig where
  limit : ℚ
  burstCapacity : Option ℚ
deriving Repr, DecidableEq

structure TokenBucketState where
  limit : ℚ
  capacity : ℚ
  tokens : ℚ
  lastRefillTime : ℚ
  isDestroyed : Bool
deriving Repr, DecidableEq

/-- rate-limiter.ts:68-74: `capacity = burstCapacity ?? limit`, bucket starts full. -/
def createTokenBucket (config : RateLimiterConfig) (now : ℚ) : TokenBucketState :=
  let capacity := config.burstCapacity.getD config.limit
  { limit := config.limit
    capacity := capacity
    tokens := capacity
    lastRefillTime := now
    isDestroyed := false }

/-- rate-limiter.ts:155-180 `configureGlobalRateLimit`.  The module-level
singleton `globalRateLimiter` is the explicit first argument.  The result is
`.error msg` when the source throws; otherwise `.ok (newState, warned)` where
`warned` records whether the already-configured warning was logged. -/
def configureGlobalRateLimit (globalRateLimiter : Option TokenBucketState)
    (config : RateLimiterConfig) (now : ℚ) :
    Except String (Option TokenBucketState × Bool) :=
  if globalRateLimiter.isSome then
    .ok (globalRateLimiter, true)
  else if config.limit ≤ 0 then
    .error "Rate limit must be greater than 0"
  else if config.burstCapacity.isSome ∧ config.burstCapacity.getD 0 < config.limit then
    .error "Burst capacity must be >= limit"
  else
    .ok (some (createTokenBucket config now), false)

/-! ## stop() and gracefulShutdown waiting loops

memory-queue.ts:291-298 and sqlite-queue.ts:782-789:
```
isRunning = false
while (activeCount > 0) { await delay(100) }
```
sqlite-queue.ts:266-302 `gracefulShutdown` (SIGTERM/SIGINT path):
```
const maxWait = 30000
while (activeCount > 0 && Date.now() - startTime < maxWait) { await delay(100) }
```
An execution is abstracted by `f : ℕ → ℕ`, the value of `activeCount`
observed at the k-th poll (one poll per 100 ms tick).  `stop()` returns at
the first poll observing 0; `gracefulShutdown` additionally gives up after
30000 / 100 = 300 polls. -/

/-- `stop()`'s wait loop, observed for `fuel` polls starting at poll `k`:
`some j` when the loop exited at poll `j` (having observed `f j = 0`),
`none` when it was still waiting after `fuel` polls.  The loop has no other
exit: no timeout, no cancellation of the in-flight send. -/
def stopLoop (f : ℕ → ℕ) : ℕ → ℕ → Option ℕ
  | 0, _ => none
  | fuel + 1, k => if f k = 0 then some k else stopLoop f fuel (k + 1)

/-- `stop()` returns on some poll of this execution. -/
def stopTerminates (f : ℕ → ℕ) : Prop :=
  ∃ fuel, (stopLoop f fuel 0).isSome

/-- The claim that `stop()` returns within `n` polls on this execution. -/
def stopReturnsWithin (f : ℕ → ℕ) (n : ℕ) : Prop :=
  (stopLoop f (n + 1) 0).isSome

/-- The poll index at which `gracefulShutdown`'s wait loop exits, computed
with enough fuel; the loop exits at the first `k` with `f k = 0` or at
k = 300 (elapsed ≥ maxWait). -/
def shutdownLoop (f : ℕ → ℕ) : ℕ → ℕ → ℕ
  | 0, k => k
  | fuel + 1, k => if f k = 0 ∨ 300 ≤ k then k else shutdownLoop f fuel (k + 1)

def shutdownExitPoll (f : ℕ → ℕ) : ℕ :=
  shutdownLoop f 301 0

/-! ## Batch monitor (batch-monitor source file)

State: the `batches` map plus the list of notifications delivered so far
(progress callbacks / webhooks and completion summaries), most recent first.
`startedAt` / `durationMs` are kept abstract (they do not affect control
flow). -/

structure BatchState where
  total : ℕ
  completed : ℕ
  failed : ℕ
deriving DecidableEq, Repr

inductive MonitorEvent where
  /-- `batch.started` webhook + initial progress callback from `startBatch`. -/
  | started (batchId : String)
  /-- progress callback from `recordSuccess` / `recordFailure`. -/
  | progress (batchId : String) (completed failed : ℕ)
  /-- completion summary (callback + `batch.completed` webhook) from `completeBatch`. -/
  | completedSummary (batchId : String) (totalSent totalFailed : ℕ)
deriving DecidableEq, Repr

structure MonitorState where
  batches : List (String × BatchState)
  events : List MonitorEvent
deriving Repr

def MonitorState.init : MonitorState := ⟨[], []⟩

def mfind (batchId : String) : List (String × BatchState) → Option BatchState
  | [] => none
  | (k, b) :: t => if k = batchId then some b else mfind batchId t

def mset (batchId : String) (b : BatchState) :
    List (String × BatchState) → List (String × BatchState)
  | [] => []
  | (k, b') :: t => if k = batchId then (k, b) :: t else (k, b') :: mset batchId b t

def mdelete (batchId : String) : List (String × BatchState) → List (String × BatchState)
  | [] => []
  | (k, b') :: t => if k = batchId then t else (k, b') :: mdelete batchId t

/-- `batches.set(batchId, batch)`: JS `Map.set` overwrites an existing key and
otherwise appends. -/
def msetOrAdd (batchId : String) (b : BatchState)
    (l : List (String × BatchState)) : List (String × BatchState) :=
  if (mfind batchId l).isSome then mset batchId b l else l ++ [(batchId, b)]

/-- `completeBatch`: emit the completion summary, then delete the batch. -/
def completeBatch (batchId : String) (s : MonitorState) : MonitorState :=
  match mfind batchId s.batches with
  | none => s
  | some b =>
      { batches := mdelete batchId s.batches
        events := .completedSummary batchId b.completed b.failed :: s.events }

/-- `startBatch(batchId, total)`: registers the batch and notifies; contains
no completion check. -/
def startBatch (batchId : String) (total : ℕ) (s : MonitorState) : MonitorState :=
  { batches := msetOrAdd batchId ⟨total, 0, 0⟩ s.batches
    events := .started batchId :: s.events }

/-- `recordSuccess(batchId)`: bump `completed`, notify, auto-complete when
`completed + failed >= total`. -/
def recordSuccess (batchId : String) (s : MonitorState) : MonitorState :=
  match mfind batchId s.batches with
  | none => s
  | some b =>
      let b' : BatchState := { b with completed := b.completed + 1 }
      let s' : MonitorState :=
        { batches := mset batchId b' s.batches
          events := .progress batchId b'.completed b'.failed :: s.events }
      if b'.total ≤ b'.completed + b'.failed then completeBatch batchId s' else s'

/-- `recordFailure(batchId)`: bump `failed`, notify, auto-complete when
`completed + failed >= total`. -/
def recordFailure (batchId : String) (s : MonitorState) : MonitorState :=
  match mfind batchId s.batches with
  | none => s
  | some b =>
      let b' : BatchState := { b with failed := b.failed + 1 }
      let s' : MonitorState :=
        { batches := mset batchId b' s.batches
          events := .progress batchId b'.completed b'.failed :: s.events }
      if b'.total ≤ b'.completed + b'.failed then completeBatch batchId s' else s'

def hasBatch (batchId : String) (s : MonitorState) : Bool :=
  (mfind batchId s.batches).isSome

/-- Monitor API calls, as issued by the queue engine. -/
inductive MonitorOp where
  | start (batchId : String) (total : ℕ)
  | recSuccess (batchId : String)
  | recFailure (batchId : String)
  | complete (batchId : String)
deriving DecidableEq, Repr

def MonitorOp.batchId : MonitorOp → String
  | .start b _ => b
  | .recSuccess b => b
  | .recFailure b => b
  | .complete b => b

def monitorExec (op : MonitorOp) (s : MonitorState) : MonitorState :=
  match op with
  | .start b total => startBatch b total s
  | .recSuccess b => recordSuccess b s
  | .recFailure b => recordFailure b s
  | .complete b => completeBatch b s

def monitorRun (ops : List MonitorOp) (s : MonitorState) : MonitorState :=
  ops.foldl (fun s op => monitorExec op s) s

/-- A completion summary delivered for `batchId`. -/
def isCompletionFor (batchId : String) : MonitorEvent → Bool
  | .completedSummary b _ _ => b = batchId
  | _ => false

/-- sqlite-queue.ts:669-729 `addBatch`: registers the batch with
`batchMonitor.startBatch(batchId, messages.length)` and inserts exactly one
row per message — an empty message list yields `total = 0` and zero rows. -/
def addBatchRegisteredTotal {α : Type} (messages : List α) : ℕ :=
  messages.length

/-! ## Queue configuration (memory-queue.ts:22-29, sqlite-queue.ts:54-61)

`DEFAULT_OPTIONS = { concurrency: 5, maxRetries: 3, retryDelay: 1000,
maxRetryDelay: 60000, rateLimit: 10, batchSize: 10 }`, merged with the
caller's options by `{ ...DEFAULT_OPTIONS, ...options }`. -/

structure QueueOptions where
  concurrency : Option ℕ := none
  maxRetries : Option ℕ := none
  retryDelay : Option ℚ := none
  maxRetryDelay : Option ℚ := none
  rateLimit : Option ℚ := none
  batchSize : Option ℕ := none
deriving DecidableEq, Repr

structure QueueConfig where
  concurrency : ℕ
  maxRetries : ℕ
  retryDelay : ℚ
  maxRetryDelay : ℚ
  rateLimit : ℚ
  batchSize : ℕ
deriving DecidableEq, Repr

def mergeOptions (options : QueueOptions) : QueueConfig :=
  { concurrency := options.concurrency.getD 5
    maxRetries := options.maxRetries.getD 3
    retryDelay := options.retryDelay.getD 1000
    maxRetryDelay := options.maxRetryDelay.getD 60000
    rateLimit := options.rateLimit.getD 10
    batchSize := options.batchSize.getD 10 }

/-! ## In-memory queue (memory-queue.ts), event-loop semantics

JavaScript is single threaded: a run interleaves synchronous segments.  Each
`MemCmd` below is one segment: an API call, a timer callback, or the
resumption of `processJob` when `provider.send`'s promise settles.  The
segment includes every synchronous call it performs (in particular the
`processNext()` chains), and stops at the first `await`.

`Job` keeps the fields that affect control flow (`message`, `createdAt`,
`lastAttemptAt`, `result`, `error` carry no control flow and are omitted).
Job ids are ℕ standing for the `randomUUID()` strings. -/

structure Job where
  status : Status
  attempts : ℕ
  maxRetries : ℕ
  scheduledFor : Option ℕ
deriving DecidableEq, Repr

/-- A job after one failed attempt under the default configuration
(used as a concrete evaluation point). -/
def sampleRetryingJob : Job :=
  { status := .retrying, attempts := 1, maxRetries := 3, scheduledFor := none }

structure MemState where
  config : QueueConfig
  /-- the `jobs` Map, in insertion order -/
  jobs : List (ℕ × Job)
  /-- the `pending` array of job ids -/
  pending : List ℕ
  /-- ids with an armed retry `setTimeout` (memory-queue.ts:219-224) -/
  retryTimers : List ℕ
  /-- ids with an armed scheduled-for `setTimeout` (memory-queue.ts:168-171) -/
  schedTimers : List ℕ
  /-- ids whose `processJob` is suspended at an `await` (send in flight) -/
  inflight : List ℕ
  activeCount : ℕ
  isRunning : Bool
  isPaused : Bool
  /-- current `Date.now()` (constant across a run; claims need no time advance) -/
  now : ℕ
deriving Repr

/-- Occurrence count of an id in a list of ids. -/
def cnt (id : ℕ) : List ℕ → ℕ
  | [] => 0
  | x :: t => cnt id t + (if x = id then 1 else 0)

/-- Remove the first occurrence of an id (a fired timer / settled promise is
taken out of its pending set). -/
def nrem (id : ℕ) : List ℕ → List ℕ
  | [] => []
  | x :: t => if x = id then t else x :: nrem id t

def jfind (id : ℕ) : List (ℕ × Job) → Option Job
  | [] => none
  | (k, j) :: t => if k = id then some j else jfind id t

/-- Mutating the live job object held in the Map. -/
def jupdate (id : ℕ) (j : Job) : List (ℕ × Job) → List (ℕ × Job)
  | [] => []
  | (k, v) :: t =>
      if k = id then (k, j) :: jupdate id j t else (k, v) :: jupdate id j t

/-- `job.scheduledFor && job.scheduledFor > new Date()` (memory-queue.ts:166). -/
def isFutureScheduled (j : Job) (now : ℕ) : Bool :=
  match j.scheduledFor with
  | some t => now < t
  | none => false

/-- One `processNext()` call (memory-queue.ts:149-177) together with the
synchronous prefix of the `processJob` it starts (memory-queue.ts:182-194):
guards, shift from `pending`, scheduled-for re-arm, then — in the same
synchronous segment, with no `await` in between — the flip to `processing`
and the `attempts` increment; the job is then in flight awaiting the send.
`processJob`'s completed-job early return calls `processNext()` again; the
fuel bounds that recursion (each call consumes one `pending` entry, so any
fuel > `pending.length` is enough). -/
def processNextSeg : ℕ → MemState → MemState
  | 0, s => s
  | fuel + 1, s =>
    if ¬s.isRunning ∨ s.isPaused then s
    else if s.config.concurrency ≤ s.activeCount then s
    else
      match s.pending with
      | [] => s
      | jobId :: rest =>
        match jfind jobId s.jobs with
        | none => { s with pending := rest }
        | some job =>
          if isFutureScheduled job s.now then
            { s with pending := rest, schedTimers := jobId :: s.schedTimers }
          else if job.status = .completed then
            processNextSeg fuel { s with pending := rest }
          else
            { s with
              pending := rest
              jobs := jupdate jobId
                { job with status := .processing, attempts := job.attempts + 1 } s.jobs
              inflight := jobId :: s.inflight
              activeCount := s.activeCount + 1 }

def processNext (s : MemState) : MemState :=
  processNextSeg (s.pending.length + 1) s

/-- `for (let i = 0; i < concurrency; i++) processNext()` (start/resume). -/
def processNextTimes : ℕ → MemState → MemState
  | 0, s => s
  | n + 1, s => processNextTimes n (processNext s)

inductive MemCmd where
  /-- `add(message, {scheduledFor?})`; `id` is the fresh `randomUUID()` -/
  | add (id : ℕ) (scheduledFor : Option ℕ)
  | start
  | stop
  | pause
  | resume
  /-- `provider.send` resolved successfully for in-flight job `id` -/
  | sendOk (id : ℕ)
  /-- `provider.send` failed (or threw) for in-flight job `id` -/
  | sendFail (id : ℕ)
  /-- the retry backoff `setTimeout` for job `id` fired -/
  | retryFire (id : ℕ)
  /-- the scheduled-for `setTimeout` for job `id` fired -/
  | schedFire (id : ℕ)
deriving DecidableEq, Repr

/-- Whether a job id was ever used in this state (model of `randomUUID()`
freshness: `add` is only enabled for an unused id). -/
def usedId (id : ℕ) (s : MemState) : Prop :=
  (jfind id s.jobs).isSome ∨ id ∈ s.pending ∨ id ∈ s.retryTimers ∨
    id ∈ s.schedTimers ∨ id ∈ s.inflight

instance (id : ℕ) (s : MemState) : Decidable (usedId id s) := by
  unfold usedId; infer_instance

def memExec (c : MemCmd) (s : MemState) : MemState :=
  match c with
  | .add id scheduledFor =>
      if usedId id s then s
      else if s.isRunning ∧ ¬s.isPaused then
        processNext { s with
          jobs := s.jobs ++ [(id,
            { status := .pending, attempts := 0,
              maxRetries := s.config.maxRetries, scheduledFor := scheduledFor })]
          pending := s.pending ++ [id] }
      else
        { s with
          jobs := s.jobs ++ [(id,
            { status := .pending, attempts := 0,
              maxRetries := s.config.maxRetries, scheduledFor := scheduledFor })]
          pending := s.pending ++ [id] }
  | .start =>
      processNextTimes s.config.concurrency
        { s with isRunning := true, isPaused := false }
  | .stop => { s with isRunning := false }
  | .pause => { s with isPaused := true }
  | .resume =>
      processNextTimes s.config.concurrency { s with isPaused := false }
  | .sendOk id =>
      if id ∈ s.inflight then
        processNext { s with
          inflight := nrem id s.inflight
          activeCount := s.activeCount - 1
          jobs :=
            match jfind id s.jobs with
            | none => s.jobs
            | some j => jupdate id { j with status := .completed } s.jobs }
      else s
  | .sendFail id =>
      if id ∈ s.inflight then
        match jfind id s.jobs with
        | none =>
            processNext { s with
              inflight := nrem id s.inflight
              activeCount := s.activeCount - 1 }
        | some j =>
            if j.attempts < j.maxRetries then
              processNext { s with
                inflight := nrem id s.inflight
                activeCount := s.activeCount - 1
                jobs := jupdate id { j with status := .retrying } s.jobs
                retryTimers := id :: s.retryTimers }
            else
              processNext { s with
                inflight := nrem id s.inflight
                activeCount := s.activeCount - 1
                jobs := jupdate id { j with status := .failed } s.jobs }
      else s
  | .retryFire id =>
      if id ∈ s.retryTimers then
        if s.isRunning ∧ ¬s.isPaused then
          processNext { s with
            retryTimers := nrem id s.retryTimers
            pending := s.pending ++ [id] }
        else { s with retryTimers := nrem id s.retryTimers }
      else s
  | .schedFire id =>
      if id ∈ s.schedTimers then
        processNext { s with
          schedTimers := nrem id s.schedTimers
          pending := s.pending ++ [id] }
      else s

def memRun (cmds : List MemCmd) (s : MemState) : MemState :=
  cmds.foldl (fun s c => memExec c s) s

def memInit (config : QueueConfig) (now : ℕ) : MemState :=
  { config := config, jobs := [], pending := [], retryTimers := [],
    schedTimers := [], inflight := [], activeCount := 0,
    isRunning := false, isPaused := false, now := now }

/-- memory-queue.ts:56-68 `createMemoryQueue`: merges options over defaults
and builds the closure state.  The function body performs no validation of
any option (in particular not of `rateLimit`) and cannot throw, hence the
result is always `.ok`. -/
def createMemoryQueue (options : QueueOptions) (now : ℕ) :
    Except String MemState :=
  .ok (memInit (mergeOptions options) now)

/-- memory-queue.ts:312-323 `clear()`: snapshot `pending.length` as the
return value, empty the array, delete the Map entries whose status is
`pending`. -/
def memClear (s : MemState) : MemState × ℕ :=
  ({ s with
      pending := []
      jobs := s.jobs.filter fun p => p.2.status ≠ .pending },
    s.pending.length)

/-- Number of jobs in `processing` status. -/
def processingCount (s : MemState) : ℕ :=
  (s.jobs.filter fun p => p.2.status = .processing).length

/-- Number of jobs deleted by `memClear`. -/
def memClearDeleted (s : MemState) : ℕ :=
  (s.jobs.filter fun p => p.2.status = .pending).length

/-- The status of the job stored under an id, when present. -/
def statusOf (id : ℕ) (s : MemState) : Option Status :=
  (jfind id s.jobs).map Job.status

/-- An idle in-memory queue holding 3 pending jobs and 1 completed job
(the spec's `clear()` scenario). -/
def threePendingOneCompleted : MemState :=
  { config := mergeOptions {}
    jobs := [(0, { status := .pending, attempts := 0, maxRetries := 3,
                   scheduledFor := none }),
             (1, { status := .pending, attempts := 0, maxRetries := 3,
                   scheduledFor := none }),
             (2, { status := .pending, attempts := 0, maxRetries := 3,
                   scheduledFor := none }),
             (3, { status := .completed, attempts := 1, maxRetries := 3,
                   scheduledFor := none })]
    pending := [0, 1, 2]
    retryTimers := []
    schedTimers := []
    inflight := []
    activeCount := 0
    isRunning := false
    isPaused := false
    now := 0 }

/-! ## SQLite queue (sqlite-queue.ts), event-loop semantics

Same single-threaded event-loop model.  A database row of `email_queue`
(`message`, `result`, `error`, `last_attempt_at`, `batch_id` carry no
control flow and are omitted; the batch monitor is modelled separately). -/

structure SqRow where
  id : ℕ
  status : Status
  attempts : ℕ
  maxRetries : ℕ
  createdAt : ℕ
  scheduledFor : Option ℕ
deriving DecidableEq, Repr

/-- The WHERE clause of `getNextPendingJob` (sqlite-queue.ts:391-393):
`status = 'pending' AND (scheduled_for IS NULL OR scheduled_for <= now)`. -/
def eligible (now : ℕ) (r : SqRow) : Bool :=
  decide (r.status = .pending) &&
    match r.scheduledFor with
    | none => true
    | some t => decide (t ≤ now)

/-- sqlite-queue.ts:385-401 `getNextPendingJob`: the SELECT with
`ORDER BY created_at ASC LIMIT 1`.  It is a plain read: it returns the row
as stored and modifies nothing. -/
def getNextPendingJob (rows : List SqRow) (now : ℕ) : Option SqRow :=
  (rows.filter (eligible now)).argmin SqRow.createdAt

/-- `UPDATE email_queue SET ... WHERE id = ?`. -/
def supdate (id : ℕ) (f : SqRow → SqRow) : List SqRow → List SqRow
  | [] => []
  | r :: t => (if r.id = id then f r else r) :: supdate id f t

def sfind (id : ℕ) : List SqRow → Option SqRow
  | [] => none
  | r :: t => if r.id = id then some r else sfind id t

structure SqState where
  config : QueueConfig
  rows : List SqRow
  /-- suspended `processJob`s: (job id, `attempts` of the `rowToJob` snapshot
  taken when the row was claimed — the pre-increment value) -/
  inflight : List (ℕ × ℕ)
  /-- ids with an armed retry `setTimeout` (sqlite-queue.ts:553-558) -/
  retryTimers : List ℕ
  /-- ids passed to `provider.send`, one entry per invocation (most recent
  first).  `processJob` invokes the Sender exactly once per claim, after its
  two awaits, so the invocation is recorded at claim time. -/
  sendLog : List ℕ
  activeCount : ℕ
  isRunning : Bool
  isPaused : Bool
  now : ℕ
deriving Repr

/-- Remove the first inflight entry for `id`. -/
def premove (id : ℕ) : List (ℕ × ℕ) → List (ℕ × ℕ)
  | [] => []
  | p :: t => if p.1 = id then t else p :: premove id t

/-- The synchronous tail of a successful claim: the UPDATE flipping the
selected row to `processing` with `attempts = job.attempts + 1`
(sqlite-queue.ts:583-586), performed in the same synchronous segment as the
SELECT, with no `await` in between; the job is then in flight awaiting
`waitForRateLimit` / `provider.send`. -/
def claimRow (r : SqRow) (s : SqState) : SqState :=
  { s with
    activeCount := s.activeCount + 1
    rows := supdate r.id
      (fun row => { row with status := .processing, attempts := r.attempts + 1 })
      s.rows
    inflight := (r.id, r.attempts) :: s.inflight
    sendLog := r.id :: s.sendLog }

/-- sqlite-queue.ts:503-517 `processNext` together with the synchronous
prefix of `processJob` (sqlite-queue.ts:580-588): the guards, the SELECT of
`getNextPendingJob`, and the claim of the selected row. -/
def sqProcessNext (s : SqState) : SqState :=
  if ¬s.isRunning ∨ s.isPaused then s
  else if s.config.concurrency ≤ s.activeCount then s
  else
    match getNextPendingJob s.rows s.now with
    | none => s
    | some r => claimRow r s

def sqProcessNextTimes : ℕ → SqState → SqState
  | 0, s => s
  | n + 1, s => sqProcessNextTimes n (sqProcessNext s)

/-- sqlite-queue.ts:214-233 `restoreInterruptedJobs`:
`UPDATE email_queue SET status = 'pending' WHERE status IN ('processing','retrying')`. -/
def restoreInterruptedJobs (rows : List SqRow) : List SqRow :=
  rows.map fun r =>
    if r.status = .processing ∨ r.status = .retrying then
      { r with status := .pending }
    else r

/-- sqlite-queue.ts:239-260 `cleanupOldJobs`: delete completed/failed rows
with `created_at < cutoff`. -/
def cleanupOldJobs (cutoff : ℕ) (rows : List SqRow) : List SqRow :=
  rows.filter fun r =>
    ¬((r.status = .completed ∨ r.status = .failed) ∧ r.createdAt < cutoff)

inductive SqCmd where
  | add (id : ℕ) (scheduledFor : Option ℕ)
  | addBatch (ids : List ℕ)
  | start
  | stop
  | pause
  | resume
  | sendOk (id : ℕ)
  | sendFail (id : ℕ)
  | retryFire (id : ℕ)
  /-- the hourly cleanup interval fired -/
  | cleanup (cutoff : ℕ)
deriving DecidableEq, Repr

/-- Model of `randomUUID()` freshness for the durable backend. -/
def sqUsedId (id : ℕ) (s : SqState) : Prop :=
  (∃ r ∈ s.rows, r.id = id) ∨ id ∈ s.sendLog ∨
    (∃ p ∈ s.inflight, p.1 = id) ∨ id ∈ s.retryTimers

instance (id : ℕ) (s : SqState) : Decidable (sqUsedId id s) := by
  unfold sqUsedId; infer_instance

def mkPendingRow (id : ℕ) (maxRetries : ℕ) (createdAt : ℕ)
    (scheduledFor : Option ℕ) : SqRow :=
  { id := id, status := .pending, attempts := 0, maxRetries := maxRetries,
    createdAt := createdAt, scheduledFor := scheduledFor }

def sqExec (c : SqCmd) (s : SqState) : SqState :=
  match c with
  | .add id scheduledFor =>
      if sqUsedId id s then s
      else if s.isRunning ∧ ¬s.isPaused then
        sqProcessNext { s with
          rows := s.rows ++ [mkPendingRow id s.config.maxRetries s.now scheduledFor] }
      else
        { s with
          rows := s.rows ++ [mkPendingRow id s.config.maxRetries s.now scheduledFor] }
  | .addBatch ids =>
      if ids.Nodup ∧ ∀ id ∈ ids, ¬sqUsedId id s then
        if s.isRunning ∧ ¬s.isPaused then
          sqProcessNextTimes s.config.concurrency { s with
            rows := s.rows ++ ids.map fun id => mkPendingRow id s.config.maxRetries s.now none }
        else
          { s with
            rows := s.rows ++ ids.map fun id => mkPendingRow id s.config.maxRetries s.now none }
      else s
  | .start =>
      -- sqlite-queue.ts:769-780: isRunning = true; isPaused = false;
      -- restoreInterruptedJobs(); then `concurrency` processNext calls.
      sqProcessNextTimes s.config.concurrency
        { s with
          isRunning := true
          isPaused := false
          rows := restoreInterruptedJobs s.rows }
  | .stop => { s with isRunning := false }
  | .pause => { s with isPaused := true }
  | .resume => sqProcessNextTimes s.config.concurrency { s with isPaused := false }
  | .sendOk id =>
      -- resumption of processJob on send success (handleJobSuccess + finally)
      if (∃ p ∈ s.inflight, p.1 = id) then
        sqProcessNext { s with
          inflight := premove id s.inflight
          activeCount := s.activeCount - 1
          rows := supdate id (fun row => { row with status := .completed }) s.rows }
      else s
  | .sendFail id =>
      -- resumption on send failure: newAttempts = snapshot.attempts + 1;
      -- retry when newAttempts < maxRetries else permanent failure
      match s.inflight.lookup id with
      | none => s
      | some snapAttempts =>
          let maxR := ((sfind id s.rows).map SqRow.maxRetries).getD 0
          if snapAttempts + 1 < maxR then
            sqProcessNext { s with
              inflight := premove id s.inflight
              activeCount := s.activeCount - 1
              rows := supdate id (fun row => { row with status := .retrying }) s.rows
              retryTimers := id :: s.retryTimers }
          else
            sqProcessNext { s with
              inflight := premove id s.inflight
              activeCount := s.activeCount - 1
              rows := supdate id (fun row => { row with status := .failed }) s.rows }
  | .retryFire id =>
      if id ∈ s.retryTimers then
        if s.isRunning ∧ ¬s.isPaused then
          sqProcessNext { s with
            retryTimers := nrem id s.retryTimers
            rows := supdate id (fun row => { row with status := .pending }) s.rows }
        else { s with retryTimers := nrem id s.retryTimers }
      else s
  | .cleanup cutoff => { s with rows := cleanupOldJobs cutoff s.rows }

def sqRun (cmds : List SqCmd) (s : SqState) : SqState :=
  cmds.foldl (fun s c => sqExec c s) s

/-- Queue construction (sqlite-queue.ts:615-618): initialize the database
over whatever rows the file already holds, restore interrupted jobs, run the
startup cleanup.  The engine starts not running. -/
def sqInit (config : QueueConfig) (rows₀ : List SqRow) (cutoff now : ℕ) : SqState :=
  { config := config
    rows := cleanupOldJobs cutoff (restoreInterruptedJobs rows₀)
    inflight := [], retryTimers := [], sendLog := []
    activeCount := 0, isRunning := false, isPaused := false, now := now }

/-- sqlite-queue.ts:803-809 `clear()`:
`DELETE FROM email_queue WHERE status = 'pending'`, returning `changes`. -/
def sqClear (s : SqState) : SqState × ℕ :=
  ({ s with rows := s.rows.filter fun r => r.status ≠ .pending },
    (s.rows.filter fun r => r.status = .pending).length)

/-- Executing the claim's first database statement
(sqlite-queue.ts:385-401).  `getNextPendingJob` runs
`db.prepare('SELECT ... LIMIT 1').get(now)`: a read-only statement — the
returned pair is (selected row, table contents after the statement).  The
status flip is issued afterwards, by `updateJobStatus` (a separate UPDATE
statement) in `processJob` (sqlite-queue.ts:583-586). -/
def runGetNextPendingJob (s : SqState) : Option SqRow × List SqRow :=
  (getNextPendingJob s.rows s.now, s.rows)

/-- The row claimed in `sqRun [.add 0 none, .start]` from an empty store. -/
def claimedRow0 : SqRow :=
  { id := 0, status := .processing, attempts := 1, maxRetries := 3,
    createdAt := 5, scheduledFor := none }

/-- Number of rows the eligible-job query would return. -/
def eligCnt (now : ℕ) (rows : List SqRow) : ℕ :=
  (rows.filter (eligible now)).length

/-- Ids of the rows the eligible-job query would return. -/
def eligIds (now : ℕ) (rows : List SqRow) : List ℕ :=
  (rows.filter (eligible now)).map SqRow.id

/-- One step of driving the running queue to completion: resolve the oldest
in-flight send successfully (whose `finally` claims the next eligible job). -/
def driveStep (s : SqState) : SqState :=
  match s.inflight with
  | [] => s
  | (id, _) :: _ => sqExec (.sendOk id) s

def drive : ℕ → SqState → SqState
  | 0, s => s
  | n + 1, s => drive n (driveStep s)

/-- A row's `scheduled_for`, if set, has elapsed at time `now`. -/
def schedElapsed (now : ℕ) (r : SqRow) : Prop :=
  ∀ t, r.scheduledFor = some t → t ≤ now

/-- The state at the start of `start()`'s dispatch burst
(sqlite-queue.ts:769-780): flags set, interrupted jobs restored. -/
def startRecovery (config : QueueConfig) (rows₀ : List SqRow)
    (cutoff now : ℕ) : SqState :=
  { sqInit config rows₀ cutoff now with
    isRunning := true
    isPaused := false
    rows := restoreInterruptedJobs (sqInit config rows₀ cutoff now).rows }

/-- A stored row left in `processing` by an interrupted prior run. -/
def interruptedRow : SqRow :=
  { id := 0
    status := Status.processing
    attempts := 1
    maxRetries := 3
    createdAt := 0
    scheduledFor := none }

/-- The state after `handleJobSuccess` and the `finally` decrement for the
oldest in-flight claim, just before its chained `processNext()`. -/
def resolveHead (jid : ℕ) (rest : List (ℕ × ℕ)) (s : SqState) : SqState :=
  { s with
    inflight := rest
    activeCount := s.activeCount - 1
    rows := supdate jid (fun row => { row with status := Status.completed }) s.rows }

/-! ## C4 — backoff calculator bounds -/

/-- C4, counterexample: at `attempt = 8` with the default `retryDelay = 1000`
and `maxRetryDelay = 60000`, the exponential base is `1000 * 2^7 = 128000`
but the returned delay is capped at `60000`, so the claimed lower bound
`base * 2^(attempt-1) <= delay` fails. -/
theorem calculateBackoff_lower_bound_fails :
    calculateBackoff 1000 60000 8 0 = 60000 ∧
    ¬((1000 : ℚ) * 2 ^ (8 - 1) ≤ calculateBackoff 1000 60000 8 0) := by
  constructor
  · unfold calculateBackoff
    norm_num
  · unfold calculateBackoff
    norm_num

/-- C4, amended: for every `attempt ≥ 1`, base delay ≥ 0 and jitter fraction
`rand ∈ [0, 1)` (the `Math.random()` draw), the delay `d` satisfies
`min (base * 2^(attempt-1)) max ≤ d ≤ min max (base * 2^(attempt-1) * 1.25)`:
the exponential-plus-jitter value is capped at `maxDelay`, so below the cap
the claimed bounds hold and at the cap the delay equals `maxDelay`. -/
theorem calculateBackoff_bounds (base maxD : ℚ) (attempt : ℕ) (rand : ℚ)
    (hatt : 1 ≤ attempt) (hb : 0 ≤ base) (hr0 : 0 ≤ rand) (hr1 : rand < 1) :
    min (base * 2 ^ (attempt - 1)) maxD ≤ calculateBackoff base maxD attempt rand ∧
    calculateBackoff base maxD attempt rand ≤ min maxD (base * 2 ^ (attempt - 1) * (5/4)) := by
  have _ := hatt
  unfold calculateBackoff
  have hpow : (0 : ℚ) ≤ base * 2 ^ (attempt - 1) := by positivity
  have hjit : (0 : ℚ) ≤ base * 2 ^ (attempt - 1) * rand * (1/4) := by positivity
  constructor
  · exact min_le_min (by linarith) le_rfl
  · refine le_min (min_le_right _ _) ((min_le_left _ _).trans ?_)
    have : base * 2 ^ (attempt - 1) * rand ≤ base * 2 ^ (attempt - 1) * 1 :=
      mul_le_mul_of_nonneg_left (le_of_lt hr1) hpow
    linarith

/-- Witness for `calculateBackoff_bounds` at `attempt = 2`, `base = 1000`,
`max = 60000`, `rand = 1/2`. -/
theorem calculateBackoff_bounds_witness :
    min ((1000 : ℚ) * 2 ^ (2 - 1)) 60000 ≤ calculateBackoff 1000 60000 2 (1/2) ∧
    calculateBackoff 1000 60000 2 (1/2) ≤ min 60000 ((1000 : ℚ) * 2 ^ (2 - 1) * (5/4)) :=
  calculateBackoff_bounds 1000 60000 2 (1/2) (by norm_num) (by norm_num)
    (by norm_num) (by norm_num)

/-! ## C6 — eager validation of rate-limiter configuration -/

/-- C6, counterexample: constructing an in-memory queue with the invalid
rate limit `rateLimit = 0` does not throw — `createMemoryQueue` performs no
validation at all, so construction succeeds. -/
theorem createMemoryQueue_invalid_rateLimit_no_throw :
    createMemoryQueue { rateLimit := some 0 } 0 =
      .ok (memInit (mergeOptions { rateLimit := some 0 }) 0) := rfl

/-- C6, amended: invalid rate-limiter configuration (`limit ≤ 0` or
`burstCapacity < limit`) is detected eagerly and synchronously by
`configureGlobalRateLimit` — it throws immediately — but only when no global
limiter is configured yet; constructing a queue with an invalid per-queue
`rateLimit` option never throws. -/
theorem invalid_rate_limit_detection (cfg : RateLimiterConfig) (now : ℚ)
    (hinv : cfg.limit ≤ 0 ∨
      (cfg.burstCapacity.isSome ∧ cfg.burstCapacity.getD 0 < cfg.limit)) :
    (∃ msg, configureGlobalRateLimit none cfg now = .error msg) ∧
    ∀ options now', (createMemoryQueue options now').isOk = true := by
  refine ⟨?_, fun _ _ => rfl⟩
  unfold configureGlobalRateLimit
  simp only [Option.isSome_none, Bool.false_eq_true, if_false]
  by_cases hl : cfg.limit ≤ 0
  · exact ⟨"Rate limit must be greater than 0", by rw [if_pos hl]⟩
  · have hb : cfg.burstCapacity.isSome ∧ cfg.burstCapacity.getD 0 < cfg.limit :=
      hinv.resolve_left hl
    exact ⟨"Burst capacity must be >= limit", by rw [if_neg hl, if_pos hb]⟩

/-- Witness for `invalid_rate_limit_detection` at `limit = 0`. -/
theorem invalid_rate_limit_detection_witness :
    (∃ msg, configureGlobalRateLimit none { limit := 0, burstCapacity := none } 0 =
      .error msg) ∧
    ∀ options now', (createMemoryQueue options now').isOk = true :=
  invalid_rate_limit_detection { limit := 0, burstCapacity := none } 0
    (Or.inl le_rfl)

/-! ## C9 — reconfiguration of the global rate limiter is a silent no-op -/

/-- C9: once the global rate limiter is configured, every subsequent
`configureGlobalRateLimit` call returns without throwing — for every input
configuration, including invalid ones — because the already-configured check
runs before validation; the call logs a warning and leaves the existing
limiter unchanged. -/
theorem configureGlobalRateLimit_noop_when_configured
    (g : Option TokenBucketState) (cfg : RateLimiterConfig) (now : ℚ)
    (h : g.isSome) :
    configureGlobalRateLimit g cfg now = .ok (g, true) := by
  unfold configureGlobalRateLimit
  rw [if_pos h]

/-- Witness for `configureGlobalRateLimit_noop_when_configured` with an
invalid reconfiguration (`limit = -5`). -/
theorem configureGlobalRateLimit_noop_witness :
    configureGlobalRateLimit
      (some (createTokenBucket { limit := 10, burstCapacity := none } 0))
      { limit := -5, burstCapacity := none } 7 =
    .ok (some (createTokenBucket { limit := 10, burstCapacity := none } 0), true) :=
  configureGlobalRateLimit_noop_when_configured
    (some (createTokenBucket { limit := 10, burstCapacity := none } 0))
    { limit := -5, burstCapacity := none } 7 rfl

/-! ## C8 — stop() waiting behavior -/

/-- C8, counterexample: on the execution where the in-flight send never
completes (`activeCount` reads 1 at every poll), `stop()`'s wait loop never
exits — there is no bound within which it returns, and it does not terminate
at all.  The claimed "maximum grace window" does not exist for `stop()`. -/
theorem stop_not_bounded :
    ¬ stopTerminates (fun _ => 1) ∧ ¬ ∃ n, stopReturnsWithin (fun _ => 1) n := by
  have key : ∀ fuel k, stopLoop (fun _ => 1) fuel k = none := by
    intro fuel
    induction fuel with
    | zero => intro k; rfl
    | succ n ih =>
        intro k
        simp only [stopLoop, one_ne_zero, if_false]
        exact ih (k + 1)
  constructor
  · rintro ⟨fuel, h⟩
    rw [key fuel 0] at h
    exact Bool.false_ne_true h
  · rintro ⟨n, h⟩
    rw [stopReturnsWithin, key (n + 1) 0] at h
    exact Bool.false_ne_true h

/-- Helper: the `gracefulShutdown` wait loop exits within its 30 s budget
(300 polls of 100 ms). -/
theorem shutdownLoop_le (f : ℕ → ℕ) :
    ∀ fuel k, k ≤ 300 → 301 ≤ k + fuel → shutdownLoop f fuel k ≤ 300 := by
  intro fuel
  induction fuel with
  | zero => intro k hk hcontra; omega
  | succ n ih =>
      intro k hk _
      rw [shutdownLoop]
      by_cases h : f k = 0 ∨ 300 ≤ k
      · rw [if_pos h]; exact hk
      · rw [if_neg h]
        push_neg at h
        exact ih (k + 1) (by omega) (by omega)

/-- C8, amended: `stop()` marks the engine not-running and waits for the
in-flight sends with *no* bound: its wait loop returns only at a poll
observing zero active sends, and never cancels the send.  The bounded
grace window (30 s = 300 polls) belongs to `gracefulShutdown`, the
signal-triggered drain, whose wait loop always exits within 300 polls. -/
theorem stop_and_shutdown_waiting (f : ℕ → ℕ) :
    (∀ fuel k j, stopLoop f fuel k = some j → f j = 0) ∧
    shutdownExitPoll f ≤ 300 := by
  constructor
  · intro fuel
    induction fuel with
    | zero => intro k j h; exact absurd h (by simp [stopLoop])
    | succ n ih =>
        intro k j h
        rw [stopLoop] at h
        by_cases hz : f k = 0
        · rw [if_pos hz] at h
          cases h
          exact hz
        · rw [if_neg hz] at h
          exact ih (k + 1) j h
  · exact shutdownLoop_le f 301 0 (by omega) (by omega)

/-- Witness for `stop_and_shutdown_waiting` on the execution whose first
poll already observes zero. -/
theorem stop_and_shutdown_waiting_witness :
    (fun _ : ℕ => 0) 0 = 0 ∧ shutdownExitPoll (fun _ => 0) ≤ 300 :=
  ⟨(stop_and_shutdown_waiting (fun _ => 0)).1 1 0 0 rfl,
    (stop_and_shutdown_waiting (fun _ => 0)).2⟩

/-! ## C10 — a zero-total batch never auto-completes -/

/-- The batch an event concerns. -/
def eventBatchId : MonitorEvent → String
  | .started b => b
  | .progress b _ _ => b
  | .completedSummary b _ _ => b

theorem isCompletionFor_batchId {b : String} {e : MonitorEvent}
    (h : isCompletionFor b e = true) : eventBatchId e = b := by
  cases e with
  | started b' => exact absurd h (by simp [isCompletionFor])
  | progress b' c f => exact absurd h (by simp [isCompletionFor])
  | completedSummary b' ts tf =>
      simpa [isCompletionFor, eventBatchId, decide_eq_true_eq] using h

theorem mfind_mset_ne (b b' : String) (x : BatchState)
    (l : List (String × BatchState)) (h : b' ≠ b) :
    mfind b (mset b' x l) = mfind b l := by
  induction l with
  | nil => rfl
  | cons p t ih =>
      obtain ⟨k, v⟩ := p
      by_cases hk : k = b'
      · subst hk
        simp [mset, mfind, h]
      · by_cases hb : k = b <;> simp [mset, mfind, hk, hb, ih, Ne.symm h]

theorem mfind_mdelete_ne (b b' : String) (l : List (String × BatchState))
    (h : b' ≠ b) : mfind b (mdelete b' l) = mfind b l := by
  induction l with
  | nil => rfl
  | cons p t ih =>
      obtain ⟨k, v⟩ := p
      by_cases hk : k = b'
      · subst hk
        simp [mdelete, mfind, h]
      · by_cases hb : k = b <;> simp [mdelete, mfind, hk, hb, ih, Ne.symm h]

theorem mfind_append_single (b b' : String) (x : BatchState)
    (l : List (String × BatchState)) :
    mfind b (l ++ [(b', x)]) =
      (mfind b l).orElse fun _ => if b' = b then some x else none := by
  induction l with
  | nil => simp [mfind]
  | cons p t ih =>
      obtain ⟨k, v⟩ := p
      by_cases hb : k = b <;> simp [mfind, hb, ih]

theorem mfind_msetOrAdd_ne (b b' : String) (x : BatchState)
    (l : List (String × BatchState)) (h : b' ≠ b) :
    mfind b (msetOrAdd b' x l) = mfind b l := by
  rw [msetOrAdd]
  by_cases hs : (mfind b' l).isSome
  · rw [if_pos hs]
    exact mfind_mset_ne b b' x l h
  · rw [if_neg hs, mfind_append_single, if_neg h]
    cases mfind b l <;> rfl

theorem mfind_mset_self (b : String) (x : BatchState)
    (l : List (String × BatchState)) (h : (mfind b l).isSome) :
    mfind b (mset b x l) = some x := by
  induction l with
  | nil => exact absurd h (by simp [mfind])
  | cons p t ih =>
      obtain ⟨k, v⟩ := p
      by_cases hk : k = b
      · subst hk
        simp [mset, mfind]
      · rw [mfind, if_neg hk] at h
        simp [mset, mfind, hk, ih h]

theorem mfind_msetOrAdd_self (b : String) (x : BatchState)
    (l : List (String × BatchState)) :
    mfind b (msetOrAdd b x l) = some x := by
  rw [msetOrAdd]
  by_cases hs : (mfind b l).isSome
  · rw [if_pos hs]
    exact mfind_mset_self b x l hs
  · rw [if_neg hs, mfind_append_single, if_pos rfl]
    cases hfb : mfind b l with
    | none => rfl
    | some y => exact absurd (by rw [hfb]; rfl) hs

/-- An op on a different batch neither touches batch `b`'s entry nor emits
an event about `b`. -/
theorem monitorExec_ne (op : MonitorOp) (s : MonitorState) (b : String)
    (hop : op.batchId ≠ b) :
    mfind b (monitorExec op s).batches = mfind b s.batches ∧
    ∀ e ∈ (monitorExec op s).events, e ∈ s.events ∨ eventBatchId e = op.batchId := by
  have hcomplete : ∀ s' : MonitorState,
      mfind b (completeBatch op.batchId s').batches = mfind b s'.batches ∧
      ∀ e ∈ (completeBatch op.batchId s').events,
        e ∈ s'.events ∨ eventBatchId e = op.batchId := by
    intro s'
    rw [completeBatch]
    cases hfb : mfind op.batchId s'.batches with
    | none => exact ⟨rfl, fun e he => Or.inl he⟩
    | some batch =>
        refine ⟨mfind_mdelete_ne b op.batchId s'.batches hop, ?_⟩
        intro e he
        rcases List.mem_cons.mp he with h | h
        · right; rw [h]; rfl
        · exact Or.inl h
  cases op with
  | start b' total =>
      refine ⟨mfind_msetOrAdd_ne b b' _ s.batches hop, ?_⟩
      intro e he
      rcases List.mem_cons.mp he with h | h
      · right; rw [h]; rfl
      · exact Or.inl h
  | recSuccess b' =>
      rw [monitorExec, recordSuccess]
      cases hfb : mfind b' s.batches with
      | none => exact ⟨rfl, fun e he => Or.inl he⟩
      | some batch =>
          by_cases hdone : batch.total ≤ batch.completed + 1 + batch.failed
          · simp only [if_pos hdone]
            have h1 := hcomplete
              { batches := mset b' { batch with completed := batch.completed + 1 } s.batches
                events := .progress b' (batch.completed + 1) batch.failed :: s.events }
            refine ⟨h1.1.trans (mfind_mset_ne b b' _ s.batches hop), ?_⟩
            intro e he
            rcases h1.2 e he with h | h
            · rcases List.mem_cons.mp h with h' | h'
              · right; rw [h']; rfl
              · exact Or.inl h'
            · exact Or.inr h
          · simp only [if_neg hdone]
            refine ⟨mfind_mset_ne b b' _ s.batches hop, ?_⟩
            intro e he
            rcases List.mem_cons.mp he with h | h
            · right; rw [h]; rfl
            · exact Or.inl h
  | recFailure b' =>
      rw [monitorExec, recordFailure]
      cases hfb : mfind b' s.batches with
      | none => exact ⟨rfl, fun e he => Or.inl he⟩
      | some batch =>
          by_cases hdone : batch.total ≤ batch.completed + (batch.failed + 1)
          · simp only [if_pos hdone]
            have h1 := hcomplete
              { batches := mset b' { batch with failed := batch.failed + 1 } s.batches
                events := .progress b' batch.completed (batch.failed + 1) :: s.events }
            refine ⟨h1.1.trans (mfind_mset_ne b b' _ s.batches hop), ?_⟩
            intro e he
            rcases h1.2 e he with h | h
            · rcases List.mem_cons.mp h with h' | h'
              · right; rw [h']; rfl
              · exact Or.inl h'
            · exact Or.inr h
          · simp only [if_neg hdone]
            refine ⟨mfind_mset_ne b b' _ s.batches hop, ?_⟩
            intro e he
            rcases List.mem_cons.mp he with h | h
            · right; rw [h]; rfl
            · exact Or.inl h
  | complete b' => exact hcomplete s

theorem monitorRun_ne (ops : List MonitorOp) (s : MonitorState) (b : String)
    (hops : ∀ op ∈ ops, op.batchId ≠ b) :
    mfind b (monitorRun ops s).batches = mfind b s.batches ∧
    ∀ e ∈ (monitorRun ops s).events, e ∈ s.events ∨ eventBatchId e ≠ b := by
  induction ops generalizing s with
  | nil => exact ⟨rfl, fun e he => Or.inl he⟩
  | cons op t ih =>
      have hop : op.batchId ≠ b := hops op (List.mem_cons_self op t)
      have hstep := monitorExec_ne op s b hop
      have hrest := ih (monitorExec op s) (fun o ho => hops o (List.mem_cons_of_mem op ho))
      refine ⟨hrest.1.trans hstep.1, ?_⟩
      intro e he
      rcases hrest.2 e he with h | h
      · rcases hstep.2 e h with h' | h'
        · exact Or.inl h'
        · right; rw [h']; exact hop
      · exact Or.inr h

/-- C10: a batch registered with `total = 0` (as `addBatch []` does on the
durable backend: it calls `startBatch(batchId, 0)` and inserts zero rows)
never auto-completes.  The completion check lives only in
`recordSuccess`/`recordFailure`, which never fire for a batch with no jobs,
so after any sequence of monitor operations none of which targets this
batch: no completion summary for it is ever delivered, `hasBatch` stays
true, and its state is never discarded. -/
theorem zero_total_batch_never_completes (b : String) (s : MonitorState)
    (ops : List MonitorOp) (hops : ∀ op ∈ ops, op.batchId ≠ b) :
    hasBatch b (monitorRun ops (startBatch b 0 s)) = true ∧
    (∀ e ∈ (monitorRun ops (startBatch b 0 s)).events,
      isCompletionFor b e = true → e ∈ s.events) ∧
    addBatchRegisteredTotal ([] : List ℕ) = 0 := by
  have hstart : mfind b (startBatch b 0 s).batches = some ⟨0, 0, 0⟩ :=
    mfind_msetOrAdd_self b ⟨0, 0, 0⟩ s.batches
  have hmain := monitorRun_ne ops (startBatch b 0 s) b hops
  refine ⟨?_, ?_, rfl⟩
  · rw [hasBatch, hmain.1, hstart]
    rfl
  · intro e he hc
    rcases hmain.2 e he with h | h
    · rw [startBatch] at h
      simp only at h
      rcases List.mem_cons.mp h with h' | h'
      · rw [h'] at hc
        exact absurd hc (by simp [isCompletionFor])
      · exact h'
    · exact absurd (isCompletionFor_batchId hc) h

/-! ### Association-list lemmas for the job map -/

theorem jfind_jupdate_ne (k id : ℕ) (j : Job) (l : List (ℕ × Job)) (h : k ≠ id) :
    jfind k (jupdate id j l) = jfind k l := by
  induction l with
  | nil => rfl
  | cons p t ih =>
      obtain ⟨k', v⟩ := p
      by_cases hk : k' = id
      · subst hk
        simp [jupdate, jfind, Ne.symm h, h, ih]
      · by_cases hb : k' = k <;> simp [jupdate, jfind, hk, hb, h, ih]

theorem jfind_jupdate_self (id : ℕ) (j j' : Job) (l : List (ℕ × Job))
    (h : jfind id l = some j') :
    jfind id (jupdate id j l) = some j := by
  induction l with
  | nil => exact absurd h (by simp [jfind])
  | cons p t ih =>
      obtain ⟨k, v⟩ := p
      by_cases hk : k = id
      · subst hk
        simp [jupdate, jfind]
      · rw [jfind, if_neg hk] at h
        simp [jupdate, jfind, hk, ih h]

theorem jupdate_keys (id : ℕ) (j : Job) (l : List (ℕ × Job)) :
    (jupdate id j l).map Prod.fst = l.map Prod.fst := by
  induction l with
  | nil => rfl
  | cons p t ih =>
      by_cases hk : p.1 = id <;> simp [jupdate, hk] <;>
        simpa [jupdate] using ih

theorem jfind_append_single (k id : ℕ) (j : Job) (l : List (ℕ × Job)) :
    jfind k (l ++ [(id, j)]) =
      (jfind k l).orElse fun _ => if id = k then some j else none := by
  induction l with
  | nil => simp [jfind]
  | cons p t ih =>
      obtain ⟨k', v⟩ := p
      by_cases hb : k' = k <;> simp [jfind, hb, ih]

theorem jfind_none_of_not_mem_keys (k : ℕ) (l : List (ℕ × Job))
    (h : k ∉ l.map Prod.fst) : jfind k l = none := by
  induction l with
  | nil => rfl
  | cons p t ih =>
      obtain ⟨k', v⟩ := p
      simp only [List.map_cons, List.mem_cons] at h
      push_neg at h
      rw [jfind, if_neg (Ne.symm h.1)]
      exact ih h.2

theorem jfind_mem (k : ℕ) (j : Job) (l : List (ℕ × Job))
    (h : jfind k l = some j) : (k, j) ∈ l := by
  induction l with
  | nil => exact absurd h (by simp [jfind])
  | cons p t ih =>
      obtain ⟨k', v⟩ := p
      by_cases hk : k' = k
      · rw [jfind, if_pos hk] at h
        cases h
        subst hk
        exact List.mem_cons_self _ _
      · rw [jfind, if_neg hk] at h
        exact List.mem_cons_of_mem _ (ih h)

theorem mem_jfind (k : ℕ) (j : Job) (l : List (ℕ × Job))
    (hk : (l.map Prod.fst).Nodup) (h : (k, j) ∈ l) : jfind k l = some j := by
  induction l with
  | nil => exact absurd h (List.not_mem_nil _)
  | cons p t ih =>
      obtain ⟨k', v⟩ := p
      simp only [List.map_cons, List.nodup_cons] at hk
      rcases List.mem_cons.mp h with h' | h'
      · cases h'
        rw [jfind, if_pos rfl]
      · have : k' ≠ k := by
          intro hkk
          subst hkk
          exact hk.1 (List.mem_map.mpr ⟨(k', j), h', rfl⟩)
        rw [jfind, if_neg this]
        exact ih hk.2 h'

theorem jfind_filter (k : ℕ) (p : ℕ × Job → Bool) (l : List (ℕ × Job))
    (hk : (l.map Prod.fst).Nodup) :
    jfind k (l.filter p) =
      match jfind k l with
      | some j => if p (k, j) then some j else none
      | none => none := by
  induction l with
  | nil => rfl
  | cons q t ih =>
      obtain ⟨k', v⟩ := q
      simp only [List.map_cons, List.nodup_cons] at hk
      by_cases hkk : k' = k
      · subst hkk
        by_cases hp : p (k', v)
        · simp [jfind, hp, List.filter_cons]
        · simp only [List.filter_cons, hp, Bool.false_eq_true, if_false,
            decide_eq_true_eq]
          rw [jfind, if_pos rfl]
          simp only [hp, Bool.false_eq_true, if_false]
          have : jfind k' (t.filter p) = none := by
            apply jfind_none_of_not_mem_keys
            intro hmem
            apply hk.1
            rcases List.mem_map.mp hmem with ⟨q, hq, hq2⟩
            exact List.mem_map.mpr ⟨q, List.mem_of_mem_filter hq, hq2⟩
          simp only [hp] at this ⊢
          exact this
      · by_cases hp : p (k', v) <;>
          simp [jfind, List.filter_cons, hp, hkk, ih hk.2]

theorem filter_keys_nodup (p : ℕ × Job → Bool) (l : List (ℕ × Job))
    (hk : (l.map Prod.fst).Nodup) : ((l.filter p).map Prod.fst).Nodup := by
  induction l with
  | nil => exact List.nodup_nil
  | cons q t ih =>
      simp only [List.map_cons, List.nodup_cons] at hk
      by_cases hp : p q

      · rw [List.filter_cons_of_pos hp]
        simp only [List.map_cons, List.nodup_cons]
        refine ⟨fun hmem => ?_, ih hk.2⟩
        apply hk.1
        rcases List.mem_map.mp hmem with ⟨q', hq', hq2⟩
        exact List.mem_map.mpr ⟨q', List.mem_of_mem_filter hq', hq2⟩
      · rw [List.filter_cons_of_neg (by simpa using hp)]
        exact ih hk.2

/-! ### Count / removal lemmas for id lists -/

theorem cnt_append (id : ℕ) (l l' : List ℕ) :
    cnt id (l ++ l') = cnt id l + cnt id l' := by
  induction l with
  | nil => simp [cnt]
  | cons x t ih => simp [cnt, ih]; omega

theorem cnt_eq_zero (id : ℕ) (l : List ℕ) : cnt id l = 0 ↔ id ∉ l := by
  induction l with
  | nil => simp [cnt]
  | cons x t ih =>
      by_cases hx : x = id
      · subst hx
        simp [cnt]
      · simp [cnt, hx, ih, Ne.symm hx]

theorem cnt_pos_of_mem (id : ℕ) (l : List ℕ) (h : id ∈ l) : 1 ≤ cnt id l := by
  rcases Nat.eq_zero_or_pos (cnt id l) with h0 | h1
  · exact absurd h ((cnt_eq_zero id l).mp h0)
  · exact h1

theorem cnt_nrem_self (id : ℕ) (l : List ℕ) :
    cnt id (nrem id l) = cnt id l - 1 := by
  induction l with
  | nil => simp [cnt, nrem]
  | cons x t ih =>
      by_cases hx : x = id
      · subst hx
        simp [nrem, cnt]
      · simp [nrem, cnt, hx, ih]

theorem cnt_nrem_ne (k id : ℕ) (l : List ℕ) (h : k ≠ id) :
    cnt k (nrem id l) = cnt k l := by
  induction l with
  | nil => rfl
  | cons x t ih =>
      by_cases hx : x = id
      · subst hx
        simp [nrem, cnt, Ne.symm h]
      · simp [nrem, cnt, hx, ih]

theorem mem_of_mem_nrem (k id : ℕ) (l : List ℕ) (h : k ∈ nrem id l) : k ∈ l := by
  induction l with
  | nil => simpa [nrem] using h
  | cons x t ih =>
      by_cases hx : x = id
      · subst hx
        rw [nrem, if_pos rfl] at h
        exact List.mem_cons_of_mem _ h
      · rw [nrem, if_neg hx] at h
        rcases List.mem_cons.mp h with h' | h'
        · exact h' ▸ List.mem_cons_self _ _
        · exact List.mem_cons_of_mem _ (ih h')

theorem mem_nrem_of_ne (k id : ℕ) (l : List ℕ) (h : k ≠ id) (hm : k ∈ l) :
    k ∈ nrem id l := by
  induction l with
  | nil => simpa using hm
  | cons x t ih =>
      by_cases hx : x = id
      · subst hx
        rw [nrem, if_pos rfl]
        rcases List.mem_cons.mp hm with h' | h'
        · exact absurd h' h
        · exact h'
      · rw [nrem, if_neg hx]
        rcases List.mem_cons.mp hm with h' | h'
        · exact h' ▸ List.mem_cons_self _ _
        · exact List.mem_cons_of_mem _ (ih h')

theorem length_nrem_of_mem (id : ℕ) (l : List ℕ) (h : id ∈ l) :
    (nrem id l).length + 1 = l.length := by
  induction l with
  | nil => simpa using h
  | cons x t ih =>
      by_cases hx : x = id
      · subst hx
        simp [nrem]
      · rw [nrem, if_neg hx]
        rcases List.mem_cons.mp h with h' | h'
        · exact absurd h'.symm hx
        · simpa using ih h'

theorem not_mem_nrem_self (id : ℕ) (l : List ℕ) (h : cnt id l ≤ 1) :
    id ∉ nrem id l := by
  rw [← cnt_eq_zero, cnt_nrem_self]
  omega

theorem jfind_isSome_of_mem_keys (k : ℕ) (l : List (ℕ × Job))
    (h : k ∈ l.map Prod.fst) : (jfind k l).isSome := by
  induction l with
  | nil => simpa using h
  | cons p t ih =>
      obtain ⟨k', v⟩ := p
      by_cases hk : k' = k
      · rw [jfind, if_pos hk]
        rfl
      · rw [jfind, if_neg hk]
        simp only [List.map_cons, List.mem_cons] at h
        rcases h with h' | h'
        · exact absurd h'.symm hk
        · exact ih h'

/-! ### Structural invariant of the in-memory queue -/

/-- Total number of places where an id is queued or in flight. -/
def memLocs (s : MemState) (id : ℕ) : ℕ :=
  cnt id s.pending + cnt id s.retryTimers + cnt id s.schedTimers + cnt id s.inflight

/-- Invariant of every reachable state of the in-memory queue:
distinct job keys; every id is queued/armed/in-flight in at most one place;
`activeCount` counts the in-flight jobs and never exceeds `concurrency`;
a job is in `processing` status exactly when it is in flight. -/
structure MemInv (s : MemState) : Prop where
  keys : (s.jobs.map Prod.fst).Nodup
  sep : ∀ id, memLocs s id ≤ 1
  act : s.activeCount = s.inflight.length
  actLe : s.activeCount ≤ s.config.concurrency
  procF : ∀ id j, jfind id s.jobs = some j → j.status = .processing → id ∈ s.inflight
  fProc : ∀ id, id ∈ s.inflight → ∃ j, jfind id s.jobs = some j ∧ j.status = .processing

theorem memInv_processNextSeg (fuel : ℕ) :
    ∀ s : MemState, MemInv s → MemInv (processNextSeg fuel s) := by
  induction fuel with
  | zero => exact fun s h => h
  | succ n ih =>
      intro s h
      rw [processNextSeg]
      by_cases h1 : ¬s.isRunning ∨ s.isPaused
      · rwa [if_pos h1]
      rw [if_neg h1]
      by_cases h2 : s.config.concurrency ≤ s.activeCount
      · rwa [if_pos h2]
      rw [if_neg h2]
      split
      next => exact h
      next jobId rest hp =>
        have hcntp : cnt jobId s.pending = cnt jobId rest + 1 := by
          rw [hp, cnt, if_pos rfl]
        -- the shifted state, used by three branches
        have hshift : MemInv { s with pending := rest } := by
          refine ⟨h.keys, fun id => ?_, h.act, h.actLe, h.procF, h.fProc⟩
          have hs := h.sep id
          rw [memLocs] at hs ⊢
          simp only at *
          rw [hp, cnt] at hs
          omega
        split
        next => exact hshift
        next job hj =>
          by_cases hfut : isFutureScheduled job s.now
          · rw [if_pos hfut]
            refine ⟨h.keys, fun id => ?_, h.act, h.actLe, h.procF, h.fProc⟩
            have hs := h.sep id
            rw [memLocs] at hs ⊢
            simp only at *
            rw [hp, cnt] at hs
            rw [cnt]
            by_cases hji : jobId = id <;> simp [hji] at hs ⊢ <;> omega
          rw [if_neg hfut]
          by_cases hcompl : job.status = .completed
          · rw [if_pos hcompl]
            exact ih _ hshift
          rw [if_neg hcompl]
          -- the claim: flip to processing in the same segment
          have hnotinf : jobId ∉ s.inflight := by
            have hs := h.sep jobId
            rw [memLocs, hcntp] at hs
            rw [← cnt_eq_zero]
            omega
          refine ⟨?_, fun id => ?_, ?_, ?_, ?_, ?_⟩
          · simpa [jupdate_keys] using h.keys
          · have hs := h.sep id
            rw [memLocs] at hs ⊢
            simp only at *
            rw [hp, cnt] at hs
            rw [cnt]
            by_cases hji : jobId = id <;> simp [hji] at hs ⊢ <;> omega
          · simp only
            rw [List.length_cons, h.act]
          · simp only
            omega
          · intro id j hfind hstat
            simp only at hfind ⊢
            by_cases hid : id = jobId
            · subst hid
              exact List.mem_cons_self _ _
            · rw [jfind_jupdate_ne id jobId _ _ hid] at hfind
              exact List.mem_cons_of_mem _ (h.procF id j hfind hstat)
          · intro id hmem
            simp only at hmem ⊢
            rcases List.mem_cons.mp hmem with hid | hid
            · subst hid
              exact ⟨_, jfind_jupdate_self _ _ _ _ hj, rfl⟩
            · have hne : id ≠ jobId := fun hcontra => hnotinf (hcontra ▸ hid)
              obtain ⟨j, hfind, hstat⟩ := h.fProc id hid
              exact ⟨j, by rw [jfind_jupdate_ne id jobId _ _ hne]; exact hfind, hstat⟩

theorem memInv_processNext (s : MemState) (h : MemInv s) :
    MemInv (processNext s) :=
  memInv_processNextSeg _ s h

theorem memInv_processNextTimes (n : ℕ) :
    ∀ s : MemState, MemInv s → MemInv (processNextTimes n s) := by
  induction n with
  | zero => exact fun s h => h
  | succ m ih => exact fun s h => ih _ (memInv_processNext s h)

theorem jfind_append_of_some (k id : ℕ) (j j0 : Job) (l : List (ℕ × Job))
    (h : jfind k l = some j0) : jfind k (l ++ [(id, j)]) = some j0 := by
  induction l with
  | nil => exact absurd h (by simp [jfind])
  | cons p t ih =>
      obtain ⟨k', v⟩ := p
      rw [List.cons_append]
      by_cases hk : k' = k
      · rw [jfind, if_pos hk] at h
        rw [jfind, if_pos hk]
        exact h
      · rw [jfind, if_neg hk] at h
        rw [jfind, if_neg hk]
        exact ih h

theorem jfind_append_of_none (k id : ℕ) (j : Job) (l : List (ℕ × Job))
    (h : jfind k l = none) :
    jfind k (l ++ [(id, j)]) = if id = k then some j else none := by
  induction l with
  | nil => simp [jfind]
  | cons p t ih =>
      obtain ⟨k', v⟩ := p
      rw [jfind] at h
      rw [List.cons_append, jfind]
      by_cases hk : k' = k
      · rw [if_pos hk] at h
        exact absurd h (by simp)
      · rw [if_neg hk] at h
        rw [if_neg hk]
        exact ih h

theorem memInv_exec (c : MemCmd) (s : MemState) (h : MemInv s) :
    MemInv (memExec c s) := by
  cases c with
  | add id sched =>
      rw [memExec]
      by_cases hu : usedId id s
      · rwa [if_pos hu]
      rw [if_neg hu]
      rw [usedId] at hu
      push_neg at hu
      obtain ⟨hjm, hpm, hrm, hsm, him⟩ := hu
      have hkeys : id ∉ s.jobs.map Prod.fst := fun hmem =>
        hjm (jfind_isSome_of_mem_keys id s.jobs hmem)
      have hbase : MemInv { s with
          jobs := s.jobs ++ [(id,
            { status := .pending, attempts := 0,
              maxRetries := s.config.maxRetries, scheduledFor := sched })]
          pending := s.pending ++ [id] } := by
        refine ⟨?_, fun k => ?_, h.act, h.actLe, ?_, ?_⟩
        · simp only [List.map_append]
          exact h.keys.append (by simp)
            (fun a ha hb => by
              rw [List.map_singleton, List.mem_singleton] at hb
              have haid : a = id := hb
              exact hkeys (haid ▸ ha))
        · have hs := h.sep k
          rw [memLocs] at hs ⊢
          simp only at hs ⊢
          rw [cnt_append]
          by_cases hk : k = id
          · subst hk
            rw [(cnt_eq_zero _ _).mpr hpm, (cnt_eq_zero _ _).mpr hrm,
              (cnt_eq_zero _ _).mpr hsm, (cnt_eq_zero _ _).mpr him] at hs ⊢
            simp [cnt]
          · have : cnt k [id] = 0 := by
              simp [cnt, Ne.symm hk]
            omega
        · intro k j hfind hstat
          simp only at hfind ⊢
          cases hcase : jfind k s.jobs with
          | some j0 =>
              rw [jfind_append_of_some k id _ j0 _ hcase] at hfind
              cases hfind
              exact h.procF k _ hcase hstat
          | none =>
              rw [jfind_append_of_none k id _ _ hcase] at hfind
              by_cases hk : id = k
              · rw [if_pos hk] at hfind
                cases hfind
                exact Status.noConfusion hstat
              · rw [if_neg hk] at hfind
                exact absurd hfind (by simp)
        · intro k hk
          obtain ⟨j, hfind, hstat⟩ := h.fProc k hk
          exact ⟨j, jfind_append_of_some k id _ j _ hfind, hstat⟩
      by_cases hrun : s.isRunning ∧ ¬s.isPaused
      · rw [if_pos hrun]
        exact memInv_processNext _ hbase
      · rwa [if_neg hrun]
  | start =>
      exact memInv_processNextTimes _ _ ⟨h.keys, h.sep, h.act, h.actLe, h.procF, h.fProc⟩
  | stop => exact ⟨h.keys, h.sep, h.act, h.actLe, h.procF, h.fProc⟩
  | pause => exact ⟨h.keys, h.sep, h.act, h.actLe, h.procF, h.fProc⟩
  | resume =>
      exact memInv_processNextTimes _ _ ⟨h.keys, h.sep, h.act, h.actLe, h.procF, h.fProc⟩
  | sendOk id =>
      rw [memExec]
      by_cases hmem : id ∈ s.inflight
      · rw [if_pos hmem]
        have hlen := length_nrem_of_mem id s.inflight hmem
        have hone : 1 ≤ s.activeCount := by
          rw [h.act]
          have := List.length_pos_of_mem hmem
          omega
        have hsep1 : cnt id s.inflight ≤ 1 := by
          have := h.sep id
          rw [memLocs] at this
          omega
        refine memInv_processNext _ ?_
        cases hj : jfind id s.jobs with
        | none =>
            refine ⟨h.keys, fun k => ?_, ?_, ?_, ?_, ?_⟩
            · have hs := h.sep k
              rw [memLocs] at hs ⊢
              simp only at hs ⊢
              by_cases hk : k = id
              · subst hk
                rw [cnt_nrem_self]
                omega
              · rw [cnt_nrem_ne k id _ hk]
                omega
            · simp only
              rw [h.act] at hone ⊢
              omega
            · simp only
              have := h.actLe
              omega
            · intro k j hfind hstat
              simp only at hfind ⊢
              have hk : k ≠ id := fun hcontra => by
                rw [hcontra, hj] at hfind
                exact absurd hfind (by simp)
              exact mem_nrem_of_ne k id _ hk (h.procF k j hfind hstat)
            · intro k hk
              simp only at hk
              exact h.fProc k (mem_of_mem_nrem k id _ hk)
        | some j0 =>
            refine ⟨?_, fun k => ?_, ?_, ?_, ?_, ?_⟩
            · simpa [jupdate_keys] using h.keys
            · have hs := h.sep k
              rw [memLocs] at hs ⊢
              simp only at hs ⊢
              by_cases hk : k = id
              · subst hk
                rw [cnt_nrem_self]
                omega
              · rw [cnt_nrem_ne k id _ hk]
                omega
            · simp only
              rw [h.act] at hone ⊢
              omega
            · simp only
              have := h.actLe
              omega
            · intro k j hfind hstat
              simp only at hfind ⊢
              by_cases hk : k = id
              · subst hk
                rw [jfind_jupdate_self _ _ _ _ hj] at hfind
                cases hfind
                exact Status.noConfusion hstat
              · rw [jfind_jupdate_ne k id _ _ hk] at hfind
                exact mem_nrem_of_ne k id _ hk (h.procF k j hfind hstat)
            · intro k hk
              simp only at hk ⊢
              have hkne : k ≠ id := fun hcontra =>
                not_mem_nrem_self id _ hsep1 (hcontra ▸ hk)
              obtain ⟨j, hfind, hstat⟩ := h.fProc k (mem_of_mem_nrem k id _ hk)
              exact ⟨j, by rw [jfind_jupdate_ne k id _ _ hkne]; exact hfind, hstat⟩
      · rwa [if_neg hmem]
  | sendFail id =>
      rw [memExec]
      by_cases hmem : id ∈ s.inflight
      · rw [if_pos hmem]
        have hlen := length_nrem_of_mem id s.inflight hmem
        have hone : 1 ≤ s.activeCount := by
          rw [h.act]
          have := List.length_pos_of_mem hmem
          omega
        have hsep1 : cnt id s.inflight ≤ 1 := by
          have := h.sep id
          rw [memLocs] at this
          omega
        have hinf1 : 1 ≤ cnt id s.inflight := cnt_pos_of_mem id _ hmem
        have hothers : cnt id s.pending = 0 ∧ cnt id s.retryTimers = 0 ∧
            cnt id s.schedTimers = 0 := by
          have := h.sep id
          rw [memLocs] at this
          omega
        cases hj : jfind id s.jobs with
        | none =>
            refine memInv_processNext _ ⟨h.keys, fun k => ?_, ?_, ?_, ?_, ?_⟩
            · have hs := h.sep k
              rw [memLocs] at hs ⊢
              simp only at hs ⊢
              by_cases hk : k = id
              · subst hk
                rw [cnt_nrem_self]
                omega
              · rw [cnt_nrem_ne k id _ hk]
                omega
            · simp only
              rw [h.act] at hone ⊢
              omega
            · simp only
              have := h.actLe
              omega
            · intro k j hfind hstat
              simp only at hfind ⊢
              have hk : k ≠ id := fun hcontra => by
                rw [hcontra, hj] at hfind
                exact absurd hfind (by simp)
              exact mem_nrem_of_ne k id _ hk (h.procF k j hfind hstat)
            · intro k hk
              simp only at hk
              exact h.fProc k (mem_of_mem_nrem k id _ hk)
        | some j0 =>
            dsimp only
            by_cases hretry : j0.attempts < j0.maxRetries
            · rw [if_pos hretry]
              refine memInv_processNext _ ⟨?_, fun k => ?_, ?_, ?_, ?_, ?_⟩
              · simpa [jupdate_keys] using h.keys
              · have hs := h.sep k
                rw [memLocs] at hs ⊢
                simp only at hs ⊢
                rw [cnt]
                by_cases hk : k = id
                · subst hk
                  rw [cnt_nrem_self, if_pos rfl]
                  omega
                · rw [cnt_nrem_ne k id _ hk, if_neg (Ne.symm hk)]
                  omega
              · simp only
                rw [h.act] at hone ⊢
                omega
              · simp only
                have := h.actLe
                omega
              · intro k j hfind hstat
                simp only at hfind ⊢
                by_cases hk : k = id
                · subst hk
                  rw [jfind_jupdate_self _ _ _ _ hj] at hfind
                  cases hfind
                  exact Status.noConfusion hstat
                · rw [jfind_jupdate_ne k id _ _ hk] at hfind
                  exact mem_nrem_of_ne k id _ hk (h.procF k j hfind hstat)
              · intro k hk
                simp only at hk ⊢
                have hkne : k ≠ id := fun hcontra =>
                  not_mem_nrem_self id _ hsep1 (hcontra ▸ hk)
                obtain ⟨j, hfind, hstat⟩ := h.fProc k (mem_of_mem_nrem k id _ hk)
                exact ⟨j, by rw [jfind_jupdate_ne k id _ _ hkne]; exact hfind, hstat⟩
            · rw [if_neg hretry]
              refine memInv_processNext _ ⟨?_, fun k => ?_, ?_, ?_, ?_, ?_⟩
              · simpa [jupdate_keys] using h.keys
              · have hs := h.sep k
                rw [memLocs] at hs ⊢
                simp only at hs ⊢
                by_cases hk : k = id
                · subst hk
                  rw [cnt_nrem_self]
                  omega
                · rw [cnt_nrem_ne k id _ hk]
                  omega
              · simp only
                rw [h.act] at hone ⊢
                omega
              · simp only
                have := h.actLe
                omega
              · intro k j hfind hstat
                simp only at hfind ⊢
                by_cases hk : k = id
                · subst hk
                  rw [jfind_jupdate_self _ _ _ _ hj] at hfind
                  cases hfind
                  exact Status.noConfusion hstat
                · rw [jfind_jupdate_ne k id _ _ hk] at hfind
                  exact mem_nrem_of_ne k id _ hk (h.procF k j hfind hstat)
              · intro k hk
                simp only at hk ⊢
                have hkne : k ≠ id := fun hcontra =>
                  not_mem_nrem_self id _ hsep1 (hcontra ▸ hk)
                obtain ⟨j, hfind, hstat⟩ := h.fProc k (mem_of_mem_nrem k id _ hk)
                exact ⟨j, by rw [jfind_jupdate_ne k id _ _ hkne]; exact hfind, hstat⟩
      · rwa [if_neg hmem]
  | retryFire id =>
      rw [memExec]
      by_cases hmem : id ∈ s.retryTimers
      · rw [if_pos hmem]
        have hret1 : 1 ≤ cnt id s.retryTimers := cnt_pos_of_mem id _ hmem
        have hothers : cnt id s.pending = 0 ∧ cnt id s.schedTimers = 0 ∧
            cnt id s.inflight = 0 := by
          have := h.sep id
          rw [memLocs] at this
          omega
        by_cases hrun : s.isRunning ∧ ¬s.isPaused
        · rw [if_pos hrun]
          refine memInv_processNext _ ⟨h.keys, fun k => ?_, h.act, h.actLe, ?_, ?_⟩
          · have hs := h.sep k
            rw [memLocs] at hs ⊢
            simp only at hs ⊢
            rw [cnt_append]
            by_cases hk : k = id
            · subst hk
              rw [cnt_nrem_self]
              simp [cnt]
              omega
            · rw [cnt_nrem_ne k id _ hk]
              have : cnt k [id] = 0 := by simp [cnt, Ne.symm hk]
              omega
          · intro k j hfind hstat
            simp only at hfind ⊢
            exact h.procF k j hfind hstat
          · intro k hk
            simp only at hk ⊢
            exact h.fProc k hk
        · rw [if_neg hrun]
          refine ⟨h.keys, fun k => ?_, h.act, h.actLe, h.procF, h.fProc⟩
          have hs := h.sep k
          rw [memLocs] at hs ⊢
          simp only at hs ⊢
          by_cases hk : k = id
          · subst hk
            rw [cnt_nrem_self]
            omega
          · rw [cnt_nrem_ne k id _ hk]
            omega
      · rwa [if_neg hmem]
  | schedFire id =>
      rw [memExec]
      by_cases hmem : id ∈ s.schedTimers
      · rw [if_pos hmem]
        have hsch1 : 1 ≤ cnt id s.schedTimers := cnt_pos_of_mem id _ hmem
        have hothers : cnt id s.pending = 0 ∧ cnt id s.retryTimers = 0 ∧
            cnt id s.inflight = 0 := by
          have := h.sep id
          rw [memLocs] at this
          omega
        refine memInv_processNext _ ⟨h.keys, fun k => ?_, h.act, h.actLe, ?_, ?_⟩
        · have hs := h.sep k
          rw [memLocs] at hs ⊢
          simp only at hs ⊢
          rw [cnt_append]
          by_cases hk : k = id
          · subst hk
            rw [cnt_nrem_self]
            simp [cnt]
            omega
          · rw [cnt_nrem_ne k id _ hk]
            have : cnt k [id] = 0 := by simp [cnt, Ne.symm hk]
            omega
        · intro k j hfind hstat
          simp only at hfind ⊢
          exact h.procF k j hfind hstat
        · intro k hk
          simp only at hk ⊢
          exact h.fProc k hk
      · rwa [if_neg hmem]

theorem memInv_run (cmds : List MemCmd) :
    ∀ s : MemState, MemInv s → MemInv (memRun cmds s) := by
  induction cmds with
  | nil => exact fun s h => h
  | cons c t ih => exact fun s h => ih _ (memInv_exec c s h)

theorem memInv_init (config : QueueConfig) (now : ℕ) :
    MemInv (memInit config now) := by
  refine ⟨List.nodup_nil, fun id => ?_, rfl, Nat.zero_le _, ?_, ?_⟩
  · rw [memLocs]
    simp [memInit, cnt]
  · intro k j hfind
    exact absurd hfind (by simp [memInit, jfind])
  · intro k hk
    exact absurd hk (by simp [memInit])

theorem config_processNextSeg (fuel : ℕ) :
    ∀ s : MemState, (processNextSeg fuel s).config = s.config := by
  induction fuel with
  | zero => intro s; rfl
  | succ n ih =>
      intro s
      rw [processNextSeg]
      by_cases h1 : ¬s.isRunning ∨ s.isPaused
      · rw [if_pos h1]
      rw [if_neg h1]
      by_cases h2 : s.config.concurrency ≤ s.activeCount
      · rw [if_pos h2]
      rw [if_neg h2]
      split
      next => rfl
      next jobId rest hp =>
        split
        next => rfl
        next job hj =>
          by_cases hfut : isFutureScheduled job s.now
          · rw [if_pos hfut]
          rw [if_neg hfut]
          by_cases hcompl : job.status = .completed
          · rw [if_pos hcompl]
            exact ih _
          · rw [if_neg hcompl]

theorem config_processNext (s : MemState) : (processNext s).config = s.config :=
  config_processNextSeg _ s

theorem config_processNextTimes (n : ℕ) :
    ∀ s : MemState, (processNextTimes n s).config = s.config := by
  induction n with
  | zero => intro s; rfl
  | succ m ih =>
      intro s
      rw [processNextTimes]
      rw [ih, config_processNext]

theorem config_memExec (c : MemCmd) (s : MemState) :
    (memExec c s).config = s.config := by
  cases c with
  | add id sched =>
      rw [memExec]
      by_cases hu : usedId id s
      · rw [if_pos hu]
      rw [if_neg hu]
      by_cases hrun : s.isRunning ∧ ¬s.isPaused
      · rw [if_pos hrun, config_processNext]
      · rw [if_neg hrun]
  | start => exact config_processNextTimes _ _
  | stop => rfl
  | pause => rfl
  | resume => exact config_processNextTimes _ _
  | sendOk id =>
      rw [memExec]
      by_cases hmem : id ∈ s.inflight
      · rw [if_pos hmem, config_processNext]
      · rw [if_neg hmem]
  | sendFail id =>
      rw [memExec]
      by_cases hmem : id ∈ s.inflight
      · rw [if_pos hmem]
        cases hj : jfind id s.jobs with
        | none => rw [config_processNext]
        | some j0 =>
            dsimp only
            by_cases hretry : j0.attempts < j0.maxRetries
            · rw [if_pos hretry, config_processNext]
            · rw [if_neg hretry, config_processNext]
      · rw [if_neg hmem]
  | retryFire id =>
      rw [memExec]
      by_cases hmem : id ∈ s.retryTimers
      · rw [if_pos hmem]
        by_cases hrun : s.isRunning ∧ ¬s.isPaused
        · rw [if_pos hrun, config_processNext]
        · rw [if_neg hrun]
      · rw [if_neg hmem]
  | schedFire id =>
      rw [memExec]
      by_cases hmem : id ∈ s.schedTimers
      · rw [if_pos hmem, config_processNext]
      · rw [if_neg hmem]

theorem config_memRun (cmds : List MemCmd) :
    ∀ s : MemState, (memRun cmds s).config = s.config := by
  induction cmds with
  | nil => intro s; rfl
  | cons c t ih =>
      intro s
      show (memRun t (memExec c s)).config = s.config
      rw [ih, config_memExec]

/-- At most `activeCount ≤ concurrency` jobs are in `processing` status in
any state satisfying the invariant. -/
theorem processingCount_le_concurrency (s : MemState) (h : MemInv s) :
    processingCount s ≤ s.config.concurrency := by
  have hsub : ((s.jobs.filter fun p => p.2.status = .processing).map Prod.fst) ⊆
      s.inflight := by
    intro k hk
    rcases List.mem_map.mp hk with ⟨⟨k', j⟩, hmem, hfst⟩
    have hk' : k' = k := hfst
    subst hk'
    have hj : jfind k' s.jobs = some j :=
      mem_jfind _ _ _ h.keys (List.mem_of_mem_filter hmem)
    have hstat : j.status = .processing := by
      have := List.of_mem_filter hmem
      simpa using this
    exact h.procF k' j hj hstat
  have hnd : ((s.jobs.filter fun p => p.2.status = .processing).map Prod.fst).Nodup :=
    filter_keys_nodup _ _ h.keys
  have hlen := (hnd.subperm hsub).length_le
  rw [List.length_map] at hlen
  rw [processingCount]
  calc (s.jobs.filter fun p => p.2.status = .processing).length
      ≤ s.inflight.length := hlen
    _ = s.activeCount := h.act.symm
    _ ≤ s.config.concurrency := h.actLe

/-! ### Retry-bound invariant of the in-memory queue (for maxRetries ≥ 1) -/

/-- On top of `MemInv`: every job's `maxRetries` is the configured ceiling;
`attempts` never exceeds it; a `failed` job failed exactly at the ceiling;
and every queued job (pending list, retry timer, scheduled timer) is either
`completed` (skipped on claim) or still below the ceiling. -/
structure MemInvR (s : MemState) : Prop where
  base : MemInv s
  jobMax : ∀ id j, jfind id s.jobs = some j → j.maxRetries = s.config.maxRetries
  bound : ∀ id j, jfind id s.jobs = some j → j.attempts ≤ s.config.maxRetries
  failedAt : ∀ id j, jfind id s.jobs = some j → j.status = .failed →
    j.attempts = s.config.maxRetries
  queued : ∀ id, (id ∈ s.pending ∨ id ∈ s.retryTimers ∨ id ∈ s.schedTimers) →
    ∀ j, jfind id s.jobs = some j →
      j.status = .completed ∨ j.attempts < s.config.maxRetries

theorem memInvR_processNextSeg (fuel : ℕ) :
    ∀ s : MemState, MemInvR s → MemInvR (processNextSeg fuel s) := by
  induction fuel with
  | zero => exact fun s h => h
  | succ n ih =>
      intro s h
      rw [processNextSeg]
      by_cases h1 : ¬s.isRunning ∨ s.isPaused
      · rwa [if_pos h1]
      rw [if_neg h1]
      by_cases h2 : s.config.concurrency ≤ s.activeCount
      · rwa [if_pos h2]
      rw [if_neg h2]
      split
      next => exact h
      next jobId rest hp =>
        have hcntp : cnt jobId s.pending = cnt jobId rest + 1 := by
          rw [hp, cnt, if_pos rfl]
        have hshiftBase : MemInv { s with pending := rest } := by
          refine ⟨h.base.keys, fun id => ?_, h.base.act, h.base.actLe,
            h.base.procF, h.base.fProc⟩
          have hs := h.base.sep id
          rw [memLocs] at hs ⊢
          simp only at *
          rw [hp, cnt] at hs
          omega
        have hshift : MemInvR { s with pending := rest } := by
          refine ⟨hshiftBase, h.jobMax, h.bound, h.failedAt, fun id hmem j hfind => ?_⟩
          refine h.queued id ?_ j hfind
          rcases hmem with hm' | hm' | hm'
          · exact Or.inl (by rw [hp]; exact List.mem_cons_of_mem _ hm')
          · exact Or.inr (Or.inl hm')
          · exact Or.inr (Or.inr hm')
        split
        next => exact hshift
        next job hj =>
          have hqhead := h.queued jobId
            (Or.inl (by rw [hp]; exact List.mem_cons_self _ _)) job hj
          by_cases hfut : isFutureScheduled job s.now
          · rw [if_pos hfut]
            refine ⟨?_, h.jobMax, h.bound, h.failedAt, fun id hmem j hfind => ?_⟩
            · refine ⟨h.base.keys, fun id => ?_, h.base.act, h.base.actLe,
                h.base.procF, h.base.fProc⟩
              have hs := h.base.sep id
              rw [memLocs] at hs ⊢
              simp only at *
              rw [hp, cnt] at hs
              rw [cnt]
              by_cases hji : jobId = id <;> simp [hji] at hs ⊢ <;> omega
            · refine h.queued id ?_ j hfind
              rcases hmem with hm' | hm' | hm'
              · exact Or.inl (by rw [hp]; exact List.mem_cons_of_mem _ hm')
              · exact Or.inr (Or.inl hm')
              · rcases List.mem_cons.mp hm' with he | he
                · exact Or.inl (by rw [hp, he]; exact List.mem_cons_self _ _)
                · exact Or.inr (Or.inr he)
          rw [if_neg hfut]
          by_cases hcompl : job.status = .completed
          · rw [if_pos hcompl]
            exact ih _ hshift
          rw [if_neg hcompl]
          have hlt : job.attempts < s.config.maxRetries :=
            hqhead.resolve_left hcompl
          have hnone : cnt jobId rest = 0 ∧ cnt jobId s.retryTimers = 0 ∧
              cnt jobId s.schedTimers = 0 ∧ cnt jobId s.inflight = 0 := by
            have hs := h.base.sep jobId
            rw [memLocs, hcntp] at hs
            omega
          have hnotinf : jobId ∉ s.inflight := (cnt_eq_zero _ _).mp hnone.2.2.2
          refine ⟨?_, ?_, ?_, ?_, ?_⟩
          · -- base invariant, as in memInv_processNextSeg
            refine ⟨?_, fun id => ?_, ?_, ?_, ?_, ?_⟩
            · simpa [jupdate_keys] using h.base.keys
            · have hs := h.base.sep id
              rw [memLocs] at hs ⊢
              simp only at *
              rw [hp, cnt] at hs
              rw [cnt]
              by_cases hji : jobId = id <;> simp [hji] at hs ⊢ <;> omega
            · simp only
              rw [List.length_cons, h.base.act]
            · simp only
              omega
            · intro id j hfind hstat
              simp only at hfind ⊢
              by_cases hid : id = jobId
              · subst hid
                exact List.mem_cons_self _ _
              · rw [jfind_jupdate_ne id jobId _ _ hid] at hfind
                exact List.mem_cons_of_mem _ (h.base.procF id j hfind hstat)
            · intro id hmem
              simp only at hmem ⊢
              rcases List.mem_cons.mp hmem with hid | hid
              · subst hid
                exact ⟨_, jfind_jupdate_self _ _ _ _ hj, rfl⟩
              · have hne : id ≠ jobId := fun hcontra => hnotinf (hcontra ▸ hid)
                obtain ⟨j, hfind, hstat⟩ := h.base.fProc id hid
                exact ⟨j, by rw [jfind_jupdate_ne id jobId _ _ hne]; exact hfind, hstat⟩
          · intro id j hfind
            simp only at hfind
            by_cases hid : id = jobId
            · subst hid
              rw [jfind_jupdate_self _ _ _ _ hj] at hfind
              cases hfind
              exact h.jobMax _ job hj
            · rw [jfind_jupdate_ne id jobId _ _ hid] at hfind
              exact h.jobMax id j hfind
          · intro id j hfind
            simp only at hfind
            by_cases hid : id = jobId
            · subst hid
              rw [jfind_jupdate_self _ _ _ _ hj] at hfind
              cases hfind
              simpa using hlt
            · rw [jfind_jupdate_ne id jobId _ _ hid] at hfind
              exact h.bound id j hfind
          · intro id j hfind hstat
            simp only at hfind
            by_cases hid : id = jobId
            · subst hid
              rw [jfind_jupdate_self _ _ _ _ hj] at hfind
              cases hfind
              exact Status.noConfusion hstat
            · rw [jfind_jupdate_ne id jobId _ _ hid] at hfind
              exact h.failedAt id j hfind hstat
          · intro id hmem j hfind
            simp only at hmem hfind
            by_cases hid : id = jobId
            · subst hid
              rcases hmem with hm' | hm' | hm'
              · exact absurd (cnt_pos_of_mem _ _ hm') (by omega)
              · exact absurd (cnt_pos_of_mem _ _ hm') (by omega)
              · exact absurd (cnt_pos_of_mem _ _ hm') (by omega)
            · rw [jfind_jupdate_ne id jobId _ _ hid] at hfind
              refine h.queued id ?_ j hfind
              rcases hmem with hm' | hm' | hm'
              · exact Or.inl (by rw [hp]; exact List.mem_cons_of_mem _ hm')
              · exact Or.inr (Or.inl hm')
              · exact Or.inr (Or.inr hm')

theorem memInvR_processNext (s : MemState) (h : MemInvR s) :
    MemInvR (processNext s) :=
  memInvR_processNextSeg _ s h

theorem memInvR_processNextTimes (n : ℕ) :
    ∀ s : MemState, MemInvR s → MemInvR (processNextTimes n s) := by
  induction n with
  | zero => exact fun s h => h
  | succ m ih => exact fun s h => ih _ (memInvR_processNext s h)

theorem memInvR_exec (c : MemCmd) (s : MemState)
    (hm : 1 ≤ s.config.maxRetries) (h : MemInvR s) :
    MemInvR (memExec c s) := by
  cases c with
  | add id sched =>
      rw [memExec]
      by_cases hu : usedId id s
      · rwa [if_pos hu]
      rw [if_neg hu]
      rw [usedId] at hu
      push_neg at hu
      obtain ⟨hjm, hpm, hrm, hsm, him⟩ := hu
      have hjnone : jfind id s.jobs = none := by
        cases hcase : jfind id s.jobs with
        | none => rfl
        | some j0 => exact absurd (by rw [hcase]; rfl) hjm
      have hkeys : id ∉ s.jobs.map Prod.fst := fun hmem =>
        hjm (jfind_isSome_of_mem_keys id s.jobs hmem)
      have hbase : MemInvR { s with
          jobs := s.jobs ++ [(id,
            { status := .pending, attempts := 0,
              maxRetries := s.config.maxRetries, scheduledFor := sched })]
          pending := s.pending ++ [id] } := by
        refine ⟨⟨?_, fun k => ?_, h.base.act, h.base.actLe, ?_, ?_⟩, ?_, ?_, ?_, ?_⟩
        · simp only [List.map_append]
          exact h.base.keys.append (by simp)
            (fun a ha hb => by
              rw [List.map_singleton, List.mem_singleton] at hb
              have haid : a = id := hb
              exact hkeys (haid ▸ ha))
        · have hs := h.base.sep k
          rw [memLocs] at hs ⊢
          simp only at hs ⊢
          rw [cnt_append]
          by_cases hk : k = id
          · subst hk
            rw [(cnt_eq_zero _ _).mpr hpm, (cnt_eq_zero _ _).mpr hrm,
              (cnt_eq_zero _ _).mpr hsm, (cnt_eq_zero _ _).mpr him] at hs ⊢
            simp [cnt]
          · have : cnt k [id] = 0 := by
              simp [cnt, Ne.symm hk]
            omega
        · intro k j hfind hstat
          simp only at hfind ⊢
          cases hcase : jfind k s.jobs with
          | some j0 =>
              rw [jfind_append_of_some k id _ j0 _ hcase] at hfind
              cases hfind
              exact h.base.procF k _ hcase hstat
          | none =>
              rw [jfind_append_of_none k id _ _ hcase] at hfind
              by_cases hk : id = k
              · rw [if_pos hk] at hfind
                cases hfind
                exact Status.noConfusion hstat
              · rw [if_neg hk] at hfind
                exact absurd hfind (by simp)
        · intro k hk
          obtain ⟨j, hfind, hstat⟩ := h.base.fProc k hk
          exact ⟨j, jfind_append_of_some k id _ j _ hfind, hstat⟩
        · intro k j hfind
          simp only at hfind
          cases hcase : jfind k s.jobs with
          | some j0 =>
              rw [jfind_append_of_some k id _ j0 _ hcase] at hfind
              cases hfind
              exact h.jobMax k _ hcase
          | none =>
              rw [jfind_append_of_none k id _ _ hcase] at hfind
              by_cases hk : id = k
              · rw [if_pos hk] at hfind
                cases hfind
                rfl
              · rw [if_neg hk] at hfind
                exact absurd hfind (by simp)
        · intro k j hfind
          simp only at hfind
          cases hcase : jfind k s.jobs with
          | some j0 =>
              rw [jfind_append_of_some k id _ j0 _ hcase] at hfind
              cases hfind
              exact h.bound k _ hcase
          | none =>
              rw [jfind_append_of_none k id _ _ hcase] at hfind
              by_cases hk : id = k
              · rw [if_pos hk] at hfind
                cases hfind
                exact Nat.zero_le _
              · rw [if_neg hk] at hfind
                exact absurd hfind (by simp)
        · intro k j hfind hstat
          simp only at hfind
          cases hcase : jfind k s.jobs with
          | some j0 =>
              rw [jfind_append_of_some k id _ j0 _ hcase] at hfind
              cases hfind
              exact h.failedAt k _ hcase hstat
          | none =>
              rw [jfind_append_of_none k id _ _ hcase] at hfind
              by_cases hk : id = k
              · rw [if_pos hk] at hfind
                cases hfind
                exact Status.noConfusion hstat
              · rw [if_neg hk] at hfind
                exact absurd hfind (by simp)
        · intro k hmem j hfind
          simp only at hmem hfind
          cases hcase : jfind k s.jobs with
          | some j0 =>
              rw [jfind_append_of_some k id _ j0 _ hcase] at hfind
              cases hfind
              refine h.queued k ?_ _ hcase
              rcases hmem with hm' | hm' | hm'
              · rcases List.mem_append.mp hm' with hmm | hmm
                · exact Or.inl hmm
                · rw [List.mem_singleton] at hmm
                  subst hmm
                  rw [hjnone] at hcase
                  exact absurd hcase (by simp)
              · exact Or.inr (Or.inl hm')
              · exact Or.inr (Or.inr hm')
          | none =>
              rw [jfind_append_of_none k id _ _ hcase] at hfind
              by_cases hk : id = k
              · rw [if_pos hk] at hfind
                cases hfind
                exact Or.inr hm
              · rw [if_neg hk] at hfind
                exact absurd hfind (by simp)
      by_cases hrun : s.isRunning ∧ ¬s.isPaused
      · rw [if_pos hrun]
        exact memInvR_processNext _ hbase
      · rwa [if_neg hrun]
  | start =>
      exact memInvR_processNextTimes _ _
        ⟨⟨h.base.keys, h.base.sep, h.base.act, h.base.actLe, h.base.procF, h.base.fProc⟩,
          h.jobMax, h.bound, h.failedAt, h.queued⟩
  | stop =>
      exact ⟨⟨h.base.keys, h.base.sep, h.base.act, h.base.actLe, h.base.procF, h.base.fProc⟩,
        h.jobMax, h.bound, h.failedAt, h.queued⟩
  | pause =>
      exact ⟨⟨h.base.keys, h.base.sep, h.base.act, h.base.actLe, h.base.procF, h.base.fProc⟩,
        h.jobMax, h.bound, h.failedAt, h.queued⟩
  | resume =>
      exact memInvR_processNextTimes _ _
        ⟨⟨h.base.keys, h.base.sep, h.base.act, h.base.actLe, h.base.procF, h.base.fProc⟩,
          h.jobMax, h.bound, h.failedAt, h.queued⟩
  | sendOk id =>
      rw [memExec]
      by_cases hmem : id ∈ s.inflight
      · rw [if_pos hmem]
        have hlen := length_nrem_of_mem id s.inflight hmem
        have hone : 1 ≤ s.activeCount := by
          rw [h.base.act]
          have := List.length_pos_of_mem hmem
          omega
        have hsep1 : cnt id s.inflight ≤ 1 := by
          have := h.base.sep id
          rw [memLocs] at this
          omega
        refine memInvR_processNext _ ?_
        cases hj : jfind id s.jobs with
        | none =>
            refine ⟨⟨h.base.keys, fun k => ?_, ?_, ?_, ?_, ?_⟩,
              h.jobMax, h.bound, h.failedAt, h.queued⟩
            · have hs := h.base.sep k
              rw [memLocs] at hs ⊢
              simp only at hs ⊢
              by_cases hk : k = id
              · subst hk
                rw [cnt_nrem_self]
                omega
              · rw [cnt_nrem_ne k id _ hk]
                omega
            · simp only
              rw [h.base.act] at hone ⊢
              omega
            · simp only
              have := h.base.actLe
              omega
            · intro k j hfind hstat
              simp only at hfind ⊢
              have hk : k ≠ id := fun hcontra => by
                rw [hcontra, hj] at hfind
                exact absurd hfind (by simp)
              exact mem_nrem_of_ne k id _ hk (h.base.procF k j hfind hstat)
            · intro k hk
              simp only at hk
              exact h.base.fProc k (mem_of_mem_nrem k id _ hk)
        | some j0 =>
            refine ⟨⟨?_, fun k => ?_, ?_, ?_, ?_, ?_⟩, ?_, ?_, ?_, ?_⟩
            · simpa [jupdate_keys] using h.base.keys
            · have hs := h.base.sep k
              rw [memLocs] at hs ⊢
              simp only at hs ⊢
              by_cases hk : k = id
              · subst hk
                rw [cnt_nrem_self]
                omega
              · rw [cnt_nrem_ne k id _ hk]
                omega
            · simp only
              rw [h.base.act] at hone ⊢
              omega
            · simp only
              have := h.base.actLe
              omega
            · intro k j hfind hstat
              simp only at hfind ⊢
              by_cases hk : k = id
              · subst hk
                rw [jfind_jupdate_self _ _ _ _ hj] at hfind
                cases hfind
                exact Status.noConfusion hstat
              · rw [jfind_jupdate_ne k id _ _ hk] at hfind
                exact mem_nrem_of_ne k id _ hk (h.base.procF k j hfind hstat)
            · intro k hk
              simp only at hk ⊢
              have hkne : k ≠ id := fun hcontra =>
                not_mem_nrem_self id _ hsep1 (hcontra ▸ hk)
              obtain ⟨j, hfind, hstat⟩ := h.base.fProc k (mem_of_mem_nrem k id _ hk)
              exact ⟨j, by rw [jfind_jupdate_ne k id _ _ hkne]; exact hfind, hstat⟩
            · intro k j hfind
              simp only at hfind
              by_cases hk : k = id
              · subst hk
                rw [jfind_jupdate_self _ _ _ _ hj] at hfind
                cases hfind
                exact h.jobMax k j0 hj
              · rw [jfind_jupdate_ne k id _ _ hk] at hfind
                exact h.jobMax k j hfind
            · intro k j hfind
              simp only at hfind
              by_cases hk : k = id
              · subst hk
                rw [jfind_jupdate_self _ _ _ _ hj] at hfind
                cases hfind
                exact h.bound k j0 hj
              · rw [jfind_jupdate_ne k id _ _ hk] at hfind
                exact h.bound k j hfind
            · intro k j hfind hstat
              simp only at hfind
              by_cases hk : k = id
              · subst hk
                rw [jfind_jupdate_self _ _ _ _ hj] at hfind
                cases hfind
                exact Status.noConfusion hstat
              · rw [jfind_jupdate_ne k id _ _ hk] at hfind
                exact h.failedAt k j hfind hstat
            · intro k hmem' j hfind
              simp only at hmem' hfind
              by_cases hk : k = id
              · subst hk
                rw [jfind_jupdate_self _ _ _ _ hj] at hfind
                cases hfind
                exact Or.inl rfl
              · rw [jfind_jupdate_ne k id _ _ hk] at hfind
                exact h.queued k hmem' j hfind
      · rwa [if_neg hmem]
  | sendFail id =>
      rw [memExec]
      by_cases hmem : id ∈ s.inflight
      · rw [if_pos hmem]
        have hlen := length_nrem_of_mem id s.inflight hmem
        have hone : 1 ≤ s.activeCount := by
          rw [h.base.act]
          have := List.length_pos_of_mem hmem
          omega
        have hsep1 : cnt id s.inflight ≤ 1 := by
          have := h.base.sep id
          rw [memLocs] at this
          omega
        have hinf1 : 1 ≤ cnt id s.inflight := cnt_pos_of_mem id _ hmem
        have hothers : cnt id s.pending = 0 ∧ cnt id s.retryTimers = 0 ∧
            cnt id s.schedTimers = 0 := by
          have := h.base.sep id
          rw [memLocs] at this
          omega
        cases hj : jfind id s.jobs with
        | none =>
            refine memInvR_processNext _
              ⟨⟨h.base.keys, fun k => ?_, ?_, ?_, ?_, ?_⟩,
                h.jobMax, h.bound, h.failedAt, h.queued⟩
            · have hs := h.base.sep k
              rw [memLocs] at hs ⊢
              simp only at hs ⊢
              by_cases hk : k = id
              · subst hk
                rw [cnt_nrem_self]
                omega
              · rw [cnt_nrem_ne k id _ hk]
                omega
            · simp only
              rw [h.base.act] at hone ⊢
              omega
            · simp only
              have := h.base.actLe
              omega
            · intro k j hfind hstat
              simp only at hfind ⊢
              have hk : k ≠ id := fun hcontra => by
                rw [hcontra, hj] at hfind
                exact absurd hfind (by simp)
              exact mem_nrem_of_ne k id _ hk (h.base.procF k j hfind hstat)
            · intro k hk
              simp only at hk
              exact h.base.fProc k (mem_of_mem_nrem k id _ hk)
        | some j0 =>
            dsimp only
            by_cases hretry : j0.attempts < j0.maxRetries
            · rw [if_pos hretry]
              refine memInvR_processNext _
                ⟨⟨?_, fun k => ?_, ?_, ?_, ?_, ?_⟩, ?_, ?_, ?_, ?_⟩
              · simpa [jupdate_keys] using h.base.keys
              · have hs := h.base.sep k
                rw [memLocs] at hs ⊢
                simp only at hs ⊢
                rw [cnt]
                by_cases hk : k = id
                · subst hk
                  rw [cnt_nrem_self, if_pos rfl]
                  omega
                · rw [cnt_nrem_ne k id _ hk, if_neg (Ne.symm hk)]
                  omega
              · simp only
                rw [h.base.act] at hone ⊢
                omega
              · simp only
                have := h.base.actLe
                omega
              · intro k j hfind hstat
                simp only at hfind ⊢
                by_cases hk : k = id
                · subst hk
                  rw [jfind_jupdate_self _ _ _ _ hj] at hfind
                  cases hfind
                  exact Status.noConfusion hstat
                · rw [jfind_jupdate_ne k id _ _ hk] at hfind
                  exact mem_nrem_of_ne k id _ hk (h.base.procF k j hfind hstat)
              · intro k hk
                simp only at hk ⊢
                have hkne : k ≠ id := fun hcontra =>
                  not_mem_nrem_self id _ hsep1 (hcontra ▸ hk)
                obtain ⟨j, hfind, hstat⟩ := h.base.fProc k (mem_of_mem_nrem k id _ hk)
                exact ⟨j, by rw [jfind_jupdate_ne k id _ _ hkne]; exact hfind, hstat⟩
              · intro k j hfind
                simp only at hfind
                by_cases hk : k = id
                · subst hk
                  rw [jfind_jupdate_self _ _ _ _ hj] at hfind
                  cases hfind
                  exact h.jobMax k j0 hj
                · rw [jfind_jupdate_ne k id _ _ hk] at hfind
                  exact h.jobMax k j hfind
              · intro k j hfind
                simp only at hfind
                by_cases hk : k = id
                · subst hk
                  rw [jfind_jupdate_self _ _ _ _ hj] at hfind
                  cases hfind
                  exact h.bound k j0 hj
                · rw [jfind_jupdate_ne k id _ _ hk] at hfind
                  exact h.bound k j hfind
              · intro k j hfind hstat
                simp only at hfind
                by_cases hk : k = id
                · subst hk
                  rw [jfind_jupdate_self _ _ _ _ hj] at hfind
                  cases hfind
                  exact Status.noConfusion hstat
                · rw [jfind_jupdate_ne k id _ _ hk] at hfind
                  exact h.failedAt k j hfind hstat
              · intro k hmem' j hfind
                simp only at hmem' hfind
                by_cases hk : k = id
                · subst hk
                  rw [jfind_jupdate_self _ _ _ _ hj] at hfind
                  cases hfind
                  refine Or.inr ?_
                  have := h.jobMax k _ hj
                  simp only
                  omega
                · rw [jfind_jupdate_ne k id _ _ hk] at hfind
                  refine h.queued k ?_ j hfind
                  rcases hmem' with hm' | hm' | hm'
                  · exact Or.inl hm'
                  · rcases List.mem_cons.mp hm' with he | he
                    · exact absurd he hk
                    · exact Or.inr (Or.inl he)
                  · exact Or.inr (Or.inr hm')
            · rw [if_neg hretry]
              refine memInvR_processNext _
                ⟨⟨?_, fun k => ?_, ?_, ?_, ?_, ?_⟩, ?_, ?_, ?_, ?_⟩
              · simpa [jupdate_keys] using h.base.keys
              · have hs := h.base.sep k
                rw [memLocs] at hs ⊢
                simp only at hs ⊢
                by_cases hk : k = id
                · subst hk
                  rw [cnt_nrem_self]
                  omega
                · rw [cnt_nrem_ne k id _ hk]
                  omega
              · simp only
                rw [h.base.act] at hone ⊢
                omega
              · simp only
                have := h.base.actLe
                omega
              · intro k j hfind hstat
                simp only at hfind ⊢
                by_cases hk : k = id
                · subst hk
                  rw [jfind_jupdate_self _ _ _ _ hj] at hfind
                  cases hfind
                  exact Status.noConfusion hstat
                · rw [jfind_jupdate_ne k id _ _ hk] at hfind
                  exact mem_nrem_of_ne k id _ hk (h.base.procF k j hfind hstat)
              · intro k hk
                simp only at hk ⊢
                have hkne : k ≠ id := fun hcontra =>
                  not_mem_nrem_self id _ hsep1 (hcontra ▸ hk)
                obtain ⟨j, hfind, hstat⟩ := h.base.fProc k (mem_of_mem_nrem k id _ hk)
                exact ⟨j, by rw [jfind_jupdate_ne k id _ _ hkne]; exact hfind, hstat⟩
              · intro k j hfind
                simp only at hfind
                by_cases hk : k = id
                · subst hk
                  rw [jfind_jupdate_self _ _ _ _ hj] at hfind
                  cases hfind
                  exact h.jobMax k j0 hj
                · rw [jfind_jupdate_ne k id _ _ hk] at hfind
                  exact h.jobMax k j hfind
              · intro k j hfind
                simp only at hfind
                by_cases hk : k = id
                · subst hk
                  rw [jfind_jupdate_self _ _ _ _ hj] at hfind
                  cases hfind
                  exact h.bound k j0 hj
                · rw [jfind_jupdate_ne k id _ _ hk] at hfind
                  exact h.bound k j hfind
              · intro k j hfind hstat
                simp only at hfind
                by_cases hk : k = id
                · subst hk
                  rw [jfind_jupdate_self _ _ _ _ hj] at hfind
                  cases hfind
                  have hmax := h.jobMax k j0 hj
                  have hb := h.bound k j0 hj
                  simp only
                  omega
                · rw [jfind_jupdate_ne k id _ _ hk] at hfind
                  exact h.failedAt k j hfind hstat
              · intro k hmem' j hfind
                simp only at hmem' hfind
                by_cases hk : k = id
                · subst hk
                  rcases hmem' with hm' | hm' | hm'
                  · exact absurd (cnt_pos_of_mem _ _ hm') (by omega)
                  · exact absurd (cnt_pos_of_mem _ _ hm') (by omega)
                  · exact absurd (cnt_pos_of_mem _ _ hm') (by omega)
                · rw [jfind_jupdate_ne k id _ _ hk] at hfind
                  exact h.queued k hmem' j hfind
      · rwa [if_neg hmem]
  | retryFire id =>
      rw [memExec]
      by_cases hmem : id ∈ s.retryTimers
      · rw [if_pos hmem]
        have hret1 : 1 ≤ cnt id s.retryTimers := cnt_pos_of_mem id _ hmem
        have hothers : cnt id s.pending = 0 ∧ cnt id s.schedTimers = 0 ∧
            cnt id s.inflight = 0 := by
          have := h.base.sep id
          rw [memLocs] at this
          omega
        by_cases hrun : s.isRunning ∧ ¬s.isPaused
        · rw [if_pos hrun]
          refine memInvR_processNext _
            ⟨⟨h.base.keys, fun k => ?_, h.base.act, h.base.actLe, ?_, ?_⟩,
              h.jobMax, h.bound, h.failedAt, ?_⟩
          · have hs := h.base.sep k
            rw [memLocs] at hs ⊢
            simp only at hs ⊢
            rw [cnt_append]
            by_cases hk : k = id
            · subst hk
              rw [cnt_nrem_self]
              simp [cnt]
              omega
            · rw [cnt_nrem_ne k id _ hk]
              have : cnt k [id] = 0 := by simp [cnt, Ne.symm hk]
              omega
          · intro k j hfind hstat
            simp only at hfind ⊢
            exact h.base.procF k j hfind hstat
          · intro k hk
            simp only at hk ⊢
            exact h.base.fProc k hk
          · intro k hmem' j hfind
            simp only at hmem' hfind
            refine h.queued k ?_ j hfind
            rcases hmem' with hm' | hm' | hm'
            · rcases List.mem_append.mp hm' with hmm | hmm
              · exact Or.inl hmm
              · rw [List.mem_singleton] at hmm
                subst hmm
                exact Or.inr (Or.inl hmem)
            · exact Or.inr (Or.inl (mem_of_mem_nrem k id _ hm'))
            · exact Or.inr (Or.inr hm')
        · rw [if_neg hrun]
          refine ⟨⟨h.base.keys, fun k => ?_, h.base.act, h.base.actLe,
            h.base.procF, h.base.fProc⟩, h.jobMax, h.bound, h.failedAt, ?_⟩
          · have hs := h.base.sep k
            rw [memLocs] at hs ⊢
            simp only at hs ⊢
            by_cases hk : k = id
            · subst hk
              rw [cnt_nrem_self]
              omega
            · rw [cnt_nrem_ne k id _ hk]
              omega
          · intro k hmem' j hfind
            simp only at hmem' hfind
            refine h.queued k ?_ j hfind
            rcases hmem' with hm' | hm' | hm'
            · exact Or.inl hm'
            · exact Or.inr (Or.inl (mem_of_mem_nrem k id _ hm'))
            · exact Or.inr (Or.inr hm')
      · rwa [if_neg hmem]
  | schedFire id =>
      rw [memExec]
      by_cases hmem : id ∈ s.schedTimers
      · rw [if_pos hmem]
        have hsch1 : 1 ≤ cnt id s.schedTimers := cnt_pos_of_mem id _ hmem
        have hothers : cnt id s.pending = 0 ∧ cnt id s.retryTimers = 0 ∧
            cnt id s.inflight = 0 := by
          have := h.base.sep id
          rw [memLocs] at this
          omega
        refine memInvR_processNext _
          ⟨⟨h.base.keys, fun k => ?_, h.base.act, h.base.actLe, ?_, ?_⟩,
            h.jobMax, h.bound, h.failedAt, ?_⟩
        · have hs := h.base.sep k
          rw [memLocs] at hs ⊢
          simp only at hs ⊢
          rw [cnt_append]
          by_cases hk : k = id
          · subst hk
            rw [cnt_nrem_self]
            simp [cnt]
            omega
          · rw [cnt_nrem_ne k id _ hk]
            have : cnt k [id] = 0 := by simp [cnt, Ne.symm hk]
            omega
        · intro k j hfind hstat
          simp only at hfind ⊢
          exact h.base.procF k j hfind hstat
        · intro k hk
          simp only at hk ⊢
          exact h.base.fProc k hk
        · intro k hmem' j hfind
          simp only at hmem' hfind
          refine h.queued k ?_ j hfind
          rcases hmem' with hm' | hm' | hm'
          · rcases List.mem_append.mp hm' with hmm | hmm
            · exact Or.inl hmm
            · rw [List.mem_singleton] at hmm
              subst hmm
              exact Or.inr (Or.inr hmem)
          · exact Or.inr (Or.inl hm')
          · exact Or.inr (Or.inr (mem_of_mem_nrem k id _ hm'))
      · rwa [if_neg hmem]

theorem memInvR_run (cmds : List MemCmd) :
    ∀ s : MemState, 1 ≤ s.config.maxRetries → MemInvR s → MemInvR (memRun cmds s) := by
  induction cmds with
  | nil => exact fun s _ h => h
  | cons c t ih =>
      intro s hm h
      show MemInvR (memRun t (memExec c s))
      exact ih _ (by rwa [config_memExec]) (memInvR_exec c s hm h)

theorem memInvR_init (config : QueueConfig) (now : ℕ) :
    MemInvR (memInit config now) := by
  refine ⟨memInv_init config now, ?_, ?_, ?_, ?_⟩
  · intro k j hfind
    exact absurd hfind (by simp [memInit, jfind])
  · intro k j hfind
    exact absurd hfind (by simp [memInit, jfind])
  · intro k j hfind
    exact absurd hfind (by simp [memInit, jfind])
  · intro k hmem
    exact absurd hmem (by simp [memInit])

/-- `processNext` touches only the job it claims, which comes from the
`pending` list: jobs whose id is not pending are left unchanged. -/
theorem jfind_processNextSeg (fuel : ℕ) :
    ∀ (s : MemState) (id : ℕ), id ∉ s.pending →
      jfind id (processNextSeg fuel s).jobs = jfind id s.jobs := by
  induction fuel with
  | zero => intro s id _; rfl
  | succ n ih =>
      intro s id hid
      rw [processNextSeg]
      by_cases h1 : ¬s.isRunning ∨ s.isPaused
      · rw [if_pos h1]
      rw [if_neg h1]
      by_cases h2 : s.config.concurrency ≤ s.activeCount
      · rw [if_pos h2]
      rw [if_neg h2]
      split
      next => rfl
      next jobId rest hp =>
        have hidr : id ∉ rest := fun hc => hid (by rw [hp]; exact List.mem_cons_of_mem _ hc)
        have hidj : jobId ≠ id := fun hc => hid (by rw [hp, hc]; exact List.mem_cons_self _ _)
        split
        next => rfl
        next job hj =>
          by_cases hfut : isFutureScheduled job s.now
          · rw [if_pos hfut]
          rw [if_neg hfut]
          by_cases hcompl : job.status = .completed
          · rw [if_pos hcompl]
            exact ih _ id hidr
          · rw [if_neg hcompl]
            exact jfind_jupdate_ne id jobId _ _ (fun hc => hidj hc.symm)

/-- C2, counterexample: with `maxRetries` configured as 0, a job still makes
one send attempt; after that attempt fails the job is `failed` with
`attempts = 1 > 0 = maxAttempts`, violating both `attempts ≤ maxAttempts`
and `failed → attempts = maxAttempts`. -/
theorem maxRetries_zero_attempts_exceed :
    jfind 0 (memRun [.add 0 none, .start, .sendFail 0]
        (memInit (mergeOptions { maxRetries := some 0 }) 0)).jobs =
      some { status := .failed, attempts := 1, maxRetries := 0, scheduledFor := none } ∧
    (mergeOptions { maxRetries := some 0 }).maxRetries = 0 ∧
    ¬(({ status := .failed, attempts := 1, maxRetries := 0,
          scheduledFor := none } : Job).attempts ≤
        (mergeOptions { maxRetries := some 0 }).maxRetries) := by
  refine ⟨by decide, by decide, by decide⟩

/-- C2, amended: for `maxAttempts = maxRetries ≥ 1` (any `maxAttempts = 0`
configuration still performs one attempt), on the in-memory backend only:
in every reachable state every job satisfies `attempts ≤ maxAttempts`, and a
`failed` job has `attempts = maxAttempts` exactly (the transition happens
once, at the ceiling, and `failed` is terminal by the invariant); moreover a
failing send resolution flips the job to `retrying` when `attempts <
maxAttempts` and to `failed` exactly when `attempts = maxAttempts` has been
reached.  On the durable backend the invariant fails even with
`maxRetries = 1`: a second `start()` runs `restoreInterruptedJobs`, which
flips the still-in-flight `processing` row back to `pending` while keeping
its `attempts`; the dispatch burst re-claims it with `attempts = 2 > 1`,
and failing that send leaves it `failed` with `attempts = 2 ≠ maxRetries`. -/
theorem attempts_le_maxRetries (options : QueueOptions) (now : ℕ)
    (hm : 1 ≤ (mergeOptions options).maxRetries) :
    (∀ cmds id j,
        jfind id (memRun cmds (memInit (mergeOptions options) now)).jobs = some j →
          j.attempts ≤ (mergeOptions options).maxRetries ∧
          (j.status = .failed → j.attempts = (mergeOptions options).maxRetries)) ∧
    (∀ (s : MemState) id j, MemInv s → id ∈ s.inflight → jfind id s.jobs = some j →
        jfind id (memExec (.sendFail id) s).jobs =
          some { j with status :=
            if j.attempts < j.maxRetries then Status.retrying else Status.failed }) ∧
    ((sqRun [.add 0 none, .start, .start, .sendFail 0]
        (sqInit (mergeOptions { maxRetries := some 1 }) [] 0 5)).rows.map
          (fun r => (r.status, r.attempts, r.maxRetries)) =
        [(Status.failed, 2, 1)] ∧
      (mergeOptions { maxRetries := some 1 }).maxRetries = 1) := by
  refine ⟨?_, ?_, by decide, by decide⟩
  · intro cmds id j hfind
    have hinv := memInvR_run cmds _ hm (memInvR_init (mergeOptions options) now)
    have hcfg : (memRun cmds (memInit (mergeOptions options) now)).config =
        mergeOptions options := config_memRun cmds _
    constructor
    · have := hinv.bound id j hfind
      rwa [hcfg] at this
    · intro hstat
      have := hinv.failedAt id j hfind hstat
      rwa [hcfg] at this
  · intro s id j hinv hmem hj
    rw [memExec, if_pos hmem, hj]
    dsimp only
    have hnp : id ∉ s.pending := by
      have hs := hinv.sep id
      have h1 := cnt_pos_of_mem id _ hmem
      rw [memLocs] at hs
      rw [← cnt_eq_zero]
      omega
    by_cases hretry : j.attempts < j.maxRetries
    · rw [if_pos hretry, if_pos hretry]
      rw [processNext, jfind_processNextSeg _ _ _ (by simpa using hnp)]
      exact jfind_jupdate_self _ _ _ _ hj
    · rw [if_neg hretry, if_neg hretry]
      rw [processNext, jfind_processNextSeg _ _ _ (by simpa using hnp)]
      exact jfind_jupdate_self _ _ _ _ hj

/-- Witness for `attempts_le_maxRetries`: default options, one job whose
first send fails (it ends `retrying` with `attempts = 1 ≤ 3`). -/
theorem attempts_le_maxRetries_witness :
    sampleRetryingJob.attempts ≤ (mergeOptions {}).maxRetries ∧
      (sampleRetryingJob.status = .failed →
        sampleRetryingJob.attempts = (mergeOptions {}).maxRetries) :=
  (attempts_le_maxRetries {} 0 (by decide)).1 [.add 0 none, .start, .sendFail 0] 0
    sampleRetryingJob (by decide)

/-! ### Row-list lemmas for the durable backend -/

theorem supdate_not_mem (id : ℕ) (f : SqRow → SqRow) (rows : List SqRow)
    (h : id ∉ rows.map SqRow.id) : supdate id f rows = rows := by
  induction rows with
  | nil => rfl
  | cons r t ih =>
      simp only [List.map_cons, List.mem_cons] at h
      push_neg at h
      rw [supdate, if_neg (fun hc => h.1 hc.symm), ih h.2]

theorem supdate_ids (id : ℕ) (f : SqRow → SqRow) (rows : List SqRow)
    (hf : ∀ r, (f r).id = r.id) :
    (supdate id f rows).map SqRow.id = rows.map SqRow.id := by
  induction rows with
  | nil => rfl
  | cons r t ih =>
      rw [supdate]
      by_cases hr : r.id = id
      · simp [hf, ih, hr]
      · simp [hr, ih]

theorem mem_supdate_of_ne (id : ℕ) (f : SqRow → SqRow) (rows : List SqRow)
    (row : SqRow) (hmem : row ∈ rows) (hne : row.id ≠ id) :
    row ∈ supdate id f rows := by
  induction rows with
  | nil => simpa using hmem
  | cons r t ih =>
      rw [supdate]
      by_cases hr : r.id = id
      · rw [if_pos hr]
        rcases List.mem_cons.mp hmem with he | he
        · exact absurd (he ▸ hr) hne
        · exact List.mem_cons_of_mem _ (ih he)
      · rw [if_neg hr]
        rcases List.mem_cons.mp hmem with he | he
        · exact he ▸ List.mem_cons_self _ _
        · exact List.mem_cons_of_mem _ (ih he)

theorem mem_supdate (id : ℕ) (f : SqRow → SqRow) (rows : List SqRow) :
    ∀ row' ∈ supdate id f rows,
      ∃ row ∈ rows, row' = if row.id = id then f row else row := by
  induction rows with
  | nil => intro row' h; simpa [supdate] using h
  | cons r t ih =>
      intro row' h
      rw [supdate] at h
      by_cases hr : r.id = id
      · rw [if_pos hr] at h
        rcases List.mem_cons.mp h with he | he
        · exact ⟨r, List.mem_cons_self _ _, by rw [if_pos hr]; exact he⟩
        · obtain ⟨row, hrow, heq⟩ := ih row' he
          exact ⟨row, List.mem_cons_of_mem _ hrow, heq⟩
      · rw [if_neg hr] at h
        rcases List.mem_cons.mp h with he | he
        · exact ⟨r, List.mem_cons_self _ _, by rw [if_neg hr]; exact he⟩
        · obtain ⟨row, hrow, heq⟩ := ih row' he
          exact ⟨row, List.mem_cons_of_mem _ hrow, heq⟩

theorem eligible_pending (now : ℕ) (r : SqRow) (h : eligible now r = true) :
    r.status = .pending := by
  rw [eligible] at h
  have := (Bool.and_eq_true _ _).mp h
  exact of_decide_eq_true this.1

theorem getNextPendingJob_spec (rows : List SqRow) (now : ℕ) (r : SqRow)
    (h : getNextPendingJob rows now = some r) :
    r ∈ rows ∧ eligible now r = true := by
  rw [getNextPendingJob] at h
  have hmem : r ∈ rows.filter (eligible now) := List.argmin_mem h
  exact ⟨List.mem_of_mem_filter hmem, List.of_mem_filter hmem⟩

theorem row_eq_of_id (rows : List SqRow) (hk : (rows.map SqRow.id).Nodup)
    (r1 r2 : SqRow) (h1 : r1 ∈ rows) (h2 : r2 ∈ rows) (hid : r1.id = r2.id) :
    r1 = r2 := by
  induction rows with
  | nil => simpa using h1
  | cons r t ih =>
      simp only [List.map_cons, List.nodup_cons] at hk
      rcases List.mem_cons.mp h1 with he1 | he1 <;>
        rcases List.mem_cons.mp h2 with he2 | he2
      · rw [he1, he2]
      · exfalso
        apply hk.1
        rw [← he1, hid]
        exact List.mem_map.mpr ⟨r2, he2, rfl⟩
      · exfalso
        apply hk.1
        rw [← he2, ← hid]
        exact List.mem_map.mpr ⟨r1, he1, rfl⟩
      · exact ih hk.2 he1 he2

/-! ### The send-count invariant of the durable backend (C1)

`processJob` invokes the Sender exactly once per claim (its only other exits
are through the same `catch`/`finally`), and the claim itself increments
`attempts` in the same synchronous segment that selected the row.  Hence in
every reachable state, for every row, the number of Sender invocations for
that job equals its `attempts` — no job is ever dispatched twice for one
attempt. -/

structure SqInv (s : SqState) : Prop where
  keys : (s.rows.map SqRow.id).Nodup
  log : ∀ r ∈ s.rows, cnt r.id s.sendLog = r.attempts

/-- Status-only updates preserve the send-count correspondence. -/
theorem sqlog_statusUpdate (id : ℕ) (f : SqRow → SqRow) (rows : List SqRow)
    (log : List ℕ) (hf : ∀ r, (f r).id = r.id ∧ (f r).attempts = r.attempts)
    (hlog : ∀ r ∈ rows, cnt r.id log = r.attempts) :
    ∀ r ∈ supdate id f rows, cnt r.id log = r.attempts := by
  intro row' hmem
  obtain ⟨row, hrow, heq⟩ := mem_supdate id f rows row' hmem
  by_cases hid : row.id = id
  · rw [heq, if_pos hid, (hf row).1, (hf row).2]
    exact hlog row hrow
  · rw [heq, if_neg hid]
    exact hlog row hrow

theorem sqInv_processNext (s : SqState) (h : SqInv s) : SqInv (sqProcessNext s) := by
  rw [sqProcessNext]
  by_cases h1 : ¬s.isRunning ∨ s.isPaused
  · rwa [if_pos h1]
  rw [if_neg h1]
  by_cases h2 : s.config.concurrency ≤ s.activeCount
  · rwa [if_pos h2]
  rw [if_neg h2]
  split
  next => exact h
  next r hr =>
    obtain ⟨hmem, helig⟩ := getNextPendingJob_spec s.rows s.now r hr
    rw [claimRow]
    constructor
    · simp only
      rw [supdate_ids]
      · exact h.keys
      · intro row
        rfl
    · intro row' hmem'
      simp only at hmem' ⊢
      obtain ⟨row, hrow, heq⟩ := mem_supdate _ _ s.rows row' hmem'
      by_cases hid : row.id = r.id
      · have hrowr : row = r := row_eq_of_id s.rows h.keys row r hrow hmem hid
        subst hrowr
        rw [heq, if_pos rfl]
        rw [cnt, if_pos rfl]
        simp only
        rw [h.log row hrow]
      · rw [heq, if_neg hid]
        rw [cnt, if_neg (fun hc => hid (by rw [← hc]))]
        simp only [Nat.add_zero]
        exact h.log row hrow

theorem sqInv_processNextTimes (n : ℕ) :
    ∀ s : SqState, SqInv s → SqInv (sqProcessNextTimes n s) := by
  induction n with
  | zero => exact fun s h => h
  | succ m ih => exact fun s h => ih _ (sqInv_processNext s h)

theorem restore_ids (rows : List SqRow) :
    (restoreInterruptedJobs rows).map SqRow.id = rows.map SqRow.id := by
  induction rows with
  | nil => rfl
  | cons r t ih =>
      rw [restoreInterruptedJobs, List.map_cons]
      by_cases hr : r.status = .processing ∨ r.status = .retrying
      · simp only [if_pos hr, List.map_cons]
        rw [show (restoreInterruptedJobs t) = t.map
          (fun r => if r.status = .processing ∨ r.status = .retrying then
            { r with status := .pending } else r) from rfl] at ih
        simp only [List.map_cons, ih]
      · simp only [if_neg hr, List.map_cons]
        rw [show (restoreInterruptedJobs t) = t.map
          (fun r => if r.status = .processing ∨ r.status = .retrying then
            { r with status := .pending } else r) from rfl] at ih
        simp only [ih]

theorem sqlog_restore (rows : List SqRow) (log : List ℕ)
    (hlog : ∀ r ∈ rows, cnt r.id log = r.attempts) :
    ∀ r ∈ restoreInterruptedJobs rows, cnt r.id log = r.attempts := by
  intro row' hmem'
  rw [restoreInterruptedJobs] at hmem'
  rcases List.mem_map.mp hmem' with ⟨row, hrow, heq⟩
  by_cases hr : row.status = .processing ∨ row.status = .retrying
  · rw [← heq, if_pos hr]
    exact hlog row hrow
  · rw [← heq, if_neg hr]
    exact hlog row hrow

theorem sqInv_exec (c : SqCmd) (s : SqState) (h : SqInv s) : SqInv (sqExec c s) := by
  cases c with
  | add id sched =>
      rw [sqExec]
      by_cases hu : sqUsedId id s
      · rwa [if_pos hu]
      rw [if_neg hu]
      rw [sqUsedId] at hu
      push_neg at hu
      obtain ⟨hrm, hlm, _, _⟩ := hu
      have hbase : SqInv { s with
          rows := s.rows ++ [mkPendingRow id s.config.maxRetries s.now sched] } := by
        constructor
        · simp only [List.map_append]
          refine h.keys.append (by simp) ?_
          intro a ha hb
          simp only [List.map_cons, List.map_nil, List.mem_singleton] at hb
          have : a = id := hb
          subst this
          rcases List.mem_map.mp ha with ⟨row, hrow, heq⟩
          exact hrm row hrow heq
        · intro row' hmem'
          simp only at hmem' ⊢
          rcases List.mem_append.mp hmem' with hmm | hmm
          · exact h.log row' hmm
          · rw [List.mem_singleton] at hmm
            subst hmm
            rw [mkPendingRow]
            simp only
            rw [(cnt_eq_zero _ _).mpr hlm]
      by_cases hrun : s.isRunning ∧ ¬s.isPaused
      · rw [if_pos hrun]
        exact sqInv_processNext _ hbase
      · rwa [if_neg hrun]
  | addBatch ids =>
      rw [sqExec]
      by_cases hguard : ids.Nodup ∧ ∀ id ∈ ids, ¬sqUsedId id s
      · rw [if_pos hguard]
        have hbase : SqInv { s with
            rows := s.rows ++ ids.map fun id =>
              mkPendingRow id s.config.maxRetries s.now none } := by
          constructor
          · simp only [List.map_append, List.map_map]
            have hmap : (SqRow.id ∘ fun n =>
                mkPendingRow n s.config.maxRetries s.now none) = id := by
              funext x
              rfl
            refine h.keys.append ?_ ?_
            · rw [hmap]
              simpa using hguard.1
            · intro a ha hb
              rw [hmap] at hb
              simp only [List.map_id] at hb
              rcases List.mem_map.mp ha with ⟨row, hrow, heq⟩
              have := hguard.2 a hb
              rw [sqUsedId] at this
              push_neg at this
              exact this.1 row hrow heq
          · intro row' hmem'
            simp only at hmem' ⊢
            rcases List.mem_append.mp hmem' with hmm | hmm
            · exact h.log row' hmm
            · rcases List.mem_map.mp hmm with ⟨idn, hidn, heq⟩
              subst heq
              rw [mkPendingRow]
              simp only
              have := hguard.2 idn hidn
              rw [sqUsedId] at this
              push_neg at this
              rw [(cnt_eq_zero _ _).mpr this.2.1]
        by_cases hrun : s.isRunning ∧ ¬s.isPaused
        · rw [if_pos hrun]
          exact sqInv_processNextTimes _ _ hbase
        · rwa [if_neg hrun]
      · rwa [if_neg hguard]
  | start =>
      refine sqInv_processNextTimes _ _ ?_
      constructor
      · simp only
        rw [restore_ids]
        exact h.keys
      · intro r hr
        exact sqlog_restore s.rows s.sendLog h.log r hr
  | stop => exact ⟨h.keys, h.log⟩
  | pause => exact ⟨h.keys, h.log⟩
  | resume => exact sqInv_processNextTimes _ _ ⟨h.keys, h.log⟩
  | sendOk id =>
      rw [sqExec]
      by_cases hmem : ∃ p ∈ s.inflight, p.1 = id
      · rw [if_pos hmem]
        refine sqInv_processNext _ ⟨?_, ?_⟩
        · simp only
          rw [supdate_ids]
          · exact h.keys
          · intro row
            rfl
        · intro r hr
          simp only at hr ⊢
          refine sqlog_statusUpdate _ _ _ _ ?_ h.log r hr
          exact fun _ => ⟨rfl, rfl⟩
      · rwa [if_neg hmem]
  | sendFail id =>
      rw [sqExec]
      cases hl : s.inflight.lookup id with
      | none => exact h
      | some snap =>
          dsimp only
          by_cases hretry : snap + 1 < ((sfind id s.rows).map SqRow.maxRetries).getD 0
          · rw [if_pos hretry]
            refine sqInv_processNext _ ⟨?_, ?_⟩
            · simp only
              rw [supdate_ids]
              · exact h.keys
              · intro row
                rfl
            · intro r hr
              simp only at hr ⊢
              refine sqlog_statusUpdate _ _ _ _ ?_ h.log r hr
              exact fun _ => ⟨rfl, rfl⟩
          · rw [if_neg hretry]
            refine sqInv_processNext _ ⟨?_, ?_⟩
            · simp only
              rw [supdate_ids]
              · exact h.keys
              · intro row
                rfl
            · intro r hr
              simp only at hr ⊢
              refine sqlog_statusUpdate _ _ _ _ ?_ h.log r hr
              exact fun _ => ⟨rfl, rfl⟩
  | retryFire id =>
      rw [sqExec]
      by_cases hmem : id ∈ s.retryTimers
      · rw [if_pos hmem]
        by_cases hrun : s.isRunning ∧ ¬s.isPaused
        · rw [if_pos hrun]
          refine sqInv_processNext _ ⟨?_, ?_⟩
          · simp only
            rw [supdate_ids]
            · exact h.keys
            · intro row
              rfl
          · intro r hr
            simp only at hr ⊢
            refine sqlog_statusUpdate _ _ _ _ ?_ h.log r hr
            exact fun _ => ⟨rfl, rfl⟩
        · rw [if_neg hrun]
          exact ⟨h.keys, h.log⟩
      · rwa [if_neg hmem]
  | cleanup cutoff =>
      refine ⟨?_, ?_⟩
      · have hsub : ((cleanupOldJobs cutoff s.rows).map SqRow.id).Sublist
            (s.rows.map SqRow.id) :=
          (List.filter_sublist _).map _
        exact h.keys.sublist hsub
      · intro r hr
        have hr' : r ∈ cleanupOldJobs cutoff s.rows := hr
        exact h.log r (List.mem_of_mem_filter hr')

theorem sqInv_run (cmds : List SqCmd) :
    ∀ s : SqState, SqInv s → SqInv (sqRun cmds s) := by
  induction cmds with
  | nil => exact fun s h => h
  | cons c t ih => exact fun s h => ih _ (sqInv_exec c s h)

theorem sqInv_init_empty (config : QueueConfig) (cutoff now : ℕ) :
    SqInv (sqInit config [] cutoff now) := by
  constructor
  · exact List.nodup_nil
  · intro r hr
    exact absurd hr (by simp [sqInit, restoreInterruptedJobs, cleanupOldJobs])

/-! ### Eligibility counting lemmas (C5) -/

theorem eligible_eq_false_of_not_pending (now : ℕ) (r : SqRow)
    (h : r.status ≠ .pending) : eligible now r = false := by
  cases he : eligible now r with
  | false => rfl
  | true => exact absurd (eligible_pending now r he) h

theorem mem_supdate_image (id : ℕ) (f : SqRow → SqRow) (rows : List SqRow)
    (row : SqRow) (hmem : row ∈ rows) :
    (if row.id = id then f row else row) ∈ supdate id f rows := by
  induction rows with
  | nil => simpa using hmem
  | cons r t ih =>
      rw [supdate]
      rcases List.mem_cons.mp hmem with he | he
      · subst he
        by_cases hr : row.id = id
        · rw [if_pos hr]
          exact List.mem_cons_self _ _
        · rw [if_neg hr]
          exact List.mem_cons_self _ _
      · by_cases hr : r.id = id
        · rw [if_pos hr]
          exact List.mem_cons_of_mem _ (ih he)
        · rw [if_neg hr]
          exact List.mem_cons_of_mem _ (ih he)

theorem getNextPendingJob_none (rows : List SqRow) (now : ℕ)
    (h : getNextPendingJob rows now = none) : eligCnt now rows = 0 := by
  rw [getNextPendingJob] at h
  rw [eligCnt, List.argmin_eq_none.mp h]
  rfl

theorem eligCnt_supdate_claimed (now id : ℕ) (f : SqRow → SqRow)
    (rows : List SqRow) (hk : (rows.map SqRow.id).Nodup) (r : SqRow)
    (hr : r ∈ rows) (hid : r.id = id) (he : eligible now r = true)
    (hf : eligible now (f r) = false) :
    eligCnt now (supdate id f rows) + 1 = eligCnt now rows := by
  induction rows with
  | nil => simpa using hr
  | cons row t ih =>
      simp only [List.map_cons, List.nodup_cons] at hk
      rw [supdate]
      by_cases hrow : row.id = id
      · have hreq : r = row := by
          rcases List.mem_cons.mp hr with he' | he'
          · exact he'
          · exfalso
            apply hk.1
            have hridrow : row.id = r.id := (hid.trans hrow.symm).symm
            rw [hridrow]
            exact List.mem_map.mpr ⟨r, he', rfl⟩
        subst hreq
        rw [if_pos hrow]
        have ht : supdate id f t = t := by
          apply supdate_not_mem
          rw [← hrow]
          exact hk.1
        rw [ht, eligCnt, eligCnt, List.filter_cons_of_neg (by simp [hf]),
          List.filter_cons_of_pos (by simp [he])]
        rfl
      · have hrt : r ∈ t := by
          rcases List.mem_cons.mp hr with he' | he'
          · exact absurd (he' ▸ hid) hrow
          · exact he'
        rw [if_neg hrow]
        rw [eligCnt, eligCnt] at ih ⊢
        by_cases helig : eligible now row = true
        · rw [List.filter_cons_of_pos (by simp [helig]),
            List.filter_cons_of_pos (by simp [helig])]
          simp only [List.length_cons]
          have := ih hk.2 hrt
          omega
        · rw [List.filter_cons_of_neg (by simpa using helig),
            List.filter_cons_of_neg (by simpa using helig)]
          exact ih hk.2 hrt

theorem eligIds_supdate_claimed (now id : ℕ) (f : SqRow → SqRow)
    (rows : List SqRow) (hk : (rows.map SqRow.id).Nodup) (r : SqRow)
    (hr : r ∈ rows) (hid : r.id = id)
    (hf : eligible now (f r) = false) :
    ∀ id' ∈ eligIds now rows, id' = id ∨ id' ∈ eligIds now (supdate id f rows) := by
  induction rows with
  | nil => simp [eligIds]
  | cons row t ih =>
      intro id' hid'
      simp only [List.map_cons, List.nodup_cons] at hk
      rw [supdate]
      by_cases hrow : row.id = id
      · have hreq : r = row := by
          rcases List.mem_cons.mp hr with he' | he'
          · exact he'
          · exfalso
            apply hk.1
            have hridrow : row.id = r.id := (hid.trans hrow.symm).symm
            rw [hridrow]
            exact List.mem_map.mpr ⟨r, he', rfl⟩
        subst hreq
        rw [if_pos hrow]
        have ht : supdate id f t = t := by
          apply supdate_not_mem
          rw [← hrow]
          exact hk.1
        rw [ht]
        rw [eligIds] at hid'
        by_cases helig : eligible now r = true
        · rw [List.filter_cons_of_pos (by simp [helig])] at hid'
          rcases List.mem_map.mp hid' with ⟨row', hrow', heq⟩
          rcases List.mem_cons.mp hrow' with he' | he'
          · left
            rw [← heq, he', hid]
          · right
            rw [eligIds, List.filter_cons_of_neg (by simp [hf])]
            exact List.mem_map.mpr ⟨row', he', heq⟩
        · rw [List.filter_cons_of_neg (by simpa using helig)] at hid'
          right
          rw [eligIds, List.filter_cons_of_neg (by simp [hf])]
          exact hid'
      · have hrt : r ∈ t := by
          rcases List.mem_cons.mp hr with he' | he'
          · exact absurd (he' ▸ hid) hrow
          · exact he'
        rw [if_neg hrow]
        rw [eligIds] at hid'
        by_cases helig : eligible now row = true
        · rw [List.filter_cons_of_pos (by simp [helig])] at hid'
          rcases List.mem_map.mp hid' with ⟨row', hrow', heq⟩
          rcases List.mem_cons.mp hrow' with he' | he'
          · right
            rw [eligIds, List.filter_cons_of_pos (by simp [helig])]
            refine List.mem_map.mpr ⟨row, List.mem_cons_self _ _, ?_⟩
            rw [← heq, he']
          · have hidt : id' ∈ eligIds now t :=
              List.mem_map.mpr ⟨row', he', heq⟩
            rcases ih hk.2 hrt id' hidt with hcase | hcase
            · exact Or.inl hcase
            · right
              rw [eligIds, List.filter_cons_of_pos (by simp [helig])]
              rw [eligIds] at hcase
              rcases List.mem_map.mp hcase with ⟨row'', hrow'', heq''⟩
              exact List.mem_map.mpr ⟨row'', List.mem_cons_of_mem _ hrow'', heq''⟩
        · rw [List.filter_cons_of_neg (by simpa using helig)] at hid'
          rcases ih hk.2 hrt id' hid' with hcase | hcase
          · exact Or.inl hcase
          · right
            rw [eligIds, List.filter_cons_of_neg (by simpa using helig)]
            exact hcase

theorem eligFilter_supdate_invariant (now id : ℕ) (f : SqRow → SqRow)
    (rows : List SqRow)
    (h : ∀ row ∈ rows, row.id = id →
      eligible now row = false ∧ eligible now (f row) = false) :
    (supdate id f rows).filter (eligible now) = rows.filter (eligible now) := by
  induction rows with
  | nil => rfl
  | cons row t ih =>
      rw [supdate]
      have ht := ih fun row' hrow' => h row' (List.mem_cons_of_mem _ hrow')
      by_cases hrow : row.id = id
      · have hboth := h row (List.mem_cons_self _ _) hrow
        rw [if_pos hrow, List.filter_cons_of_neg (by simp [hboth.2]),
          List.filter_cons_of_neg (by simp [hboth.1]), ht]
      · rw [if_neg hrow]
        by_cases helig : eligible now row = true
        · rw [List.filter_cons_of_pos (by simp [helig]),
            List.filter_cons_of_pos (by simp [helig]), ht]
        · rw [List.filter_cons_of_neg (by simpa using helig),
            List.filter_cons_of_neg (by simpa using helig), ht]

theorem premove_head (id k : ℕ) (rest : List (ℕ × ℕ)) :
    premove id ((id, k) :: rest) = rest := by
  rw [premove, if_pos rfl]

/-! ### Drive invariant: running the durable queue to completion (C5) -/

/-- Invariant of the running durable queue during dispatch: distinct row
ids; `activeCount` counts distinct in-flight claims bounded by
`concurrency`; every in-flight claim corresponds to a `processing` row. -/
structure DriveCore (s : SqState) : Prop where
  keys : (s.rows.map SqRow.id).Nodup
  run : s.isRunning = true
  np : s.isPaused = false
  act : s.activeCount = s.inflight.length
  actLe : s.activeCount ≤ s.config.concurrency
  fProc : ∀ p ∈ s.inflight, ∃ r ∈ s.rows, r.id = p.1 ∧ r.status = .processing
  infNodup : (s.inflight.map Prod.fst).Nodup

theorem sqProcessNext_char (s : SqState) (hrun : s.isRunning = true)
    (hnp : s.isPaused = false) :
    (s.config.concurrency ≤ s.activeCount ∧ sqProcessNext s = s) ∨
    (s.activeCount < s.config.concurrency ∧ eligCnt s.now s.rows = 0 ∧
      sqProcessNext s = s) ∨
    (s.activeCount < s.config.concurrency ∧
      ∃ r, getNextPendingJob s.rows s.now = some r ∧
        sqProcessNext s = claimRow r s) := by
  rw [sqProcessNext]
  rw [if_neg (by rw [hrun, hnp]; simp)]
  by_cases h2 : s.config.concurrency ≤ s.activeCount
  · rw [if_pos h2]
    exact Or.inl ⟨h2, rfl⟩
  · rw [if_neg h2]
    cases hg : getNextPendingJob s.rows s.now with
    | none =>
        exact Or.inr (Or.inl ⟨by omega, getNextPendingJob_none _ _ hg, rfl⟩)
    | some r => exact Or.inr (Or.inr ⟨by omega, r, rfl, rfl⟩)

theorem sqProcessNext_id_of_elig_zero (s : SqState)
    (he : eligCnt s.now s.rows = 0) : sqProcessNext s = s := by
  rw [sqProcessNext]
  by_cases h1 : ¬s.isRunning ∨ s.isPaused
  · rw [if_pos h1]
  rw [if_neg h1]
  by_cases h2 : s.config.concurrency ≤ s.activeCount
  · rw [if_pos h2]
  rw [if_neg h2]
  cases hg : getNextPendingJob s.rows s.now with
  | none => rfl
  | some r =>
      exfalso
      obtain ⟨hmem, helig⟩ := getNextPendingJob_spec s.rows s.now r hg
      have : r ∈ s.rows.filter (eligible s.now) :=
        List.mem_filter.mpr ⟨hmem, helig⟩
      rw [eligCnt, List.length_eq_zero] at he
      rw [he] at this
      exact List.not_mem_nil r this

theorem sqProcessNext_const (s : SqState) :
    (sqProcessNext s).config = s.config ∧ (sqProcessNext s).now = s.now ∧
    (sqProcessNext s).isRunning = s.isRunning ∧
    (sqProcessNext s).isPaused = s.isPaused := by
  rw [sqProcessNext]
  by_cases h1 : ¬s.isRunning ∨ s.isPaused
  · rw [if_pos h1]
    exact ⟨rfl, rfl, rfl, rfl⟩
  rw [if_neg h1]
  by_cases h2 : s.config.concurrency ≤ s.activeCount
  · rw [if_pos h2]
    exact ⟨rfl, rfl, rfl, rfl⟩
  rw [if_neg h2]
  split
  next => exact ⟨rfl, rfl, rfl, rfl⟩
  next r hr => exact ⟨rfl, rfl, rfl, rfl⟩

theorem sqProcessNextTimes_const (m : ℕ) :
    ∀ s : SqState, (sqProcessNextTimes m s).config = s.config ∧
      (sqProcessNextTimes m s).now = s.now ∧
      (sqProcessNextTimes m s).isRunning = s.isRunning ∧
      (sqProcessNextTimes m s).isPaused = s.isPaused := by
  induction m with
  | zero => exact fun s => ⟨rfl, rfl, rfl, rfl⟩
  | succ n ih =>
      intro s
      obtain ⟨h1, h2, h3, h4⟩ := ih (sqProcessNext s)
      obtain ⟨g1, g2, g3, g4⟩ := sqProcessNext_const s
      exact ⟨h1.trans g1, h2.trans g2, h3.trans g3, h4.trans g4⟩

theorem driveCore_claimRow (s : SqState) (r : SqRow) (h : DriveCore s)
    (hr : getNextPendingJob s.rows s.now = some r)
    (hlt : s.activeCount < s.config.concurrency) : DriveCore (claimRow r s) := by
  obtain ⟨hmem, helig⟩ := getNextPendingJob_spec _ _ _ hr
  have hpend : r.status = .pending := eligible_pending _ _ helig
  have hnotinf : r.id ∉ s.inflight.map Prod.fst := by
    intro hcontra
    rcases List.mem_map.mp hcontra with ⟨p, hp, heq⟩
    obtain ⟨r', hr', hrid, hrproc⟩ := h.fProc p hp
    have hre : r' = r := row_eq_of_id s.rows h.keys r' r hr' hmem (by rw [hrid, heq])
    rw [hre, hpend] at hrproc
    exact Status.noConfusion hrproc
  rw [claimRow]
  refine ⟨?_, h.run, h.np, ?_, ?_, ?_, ?_⟩
  · simp only
    rw [supdate_ids]
    · exact h.keys
    · intro row
      rfl
  · simp only [List.length_cons, h.act]
  · simp only
    omega
  · intro p hp
    simp only at hp ⊢
    rcases List.mem_cons.mp hp with he | he
    · subst he
      refine ⟨{ r with status := .processing, attempts := r.attempts + 1 },
        ?_, rfl, rfl⟩
      have him := mem_supdate_image r.id
        (fun row => { row with status := .processing, attempts := r.attempts + 1 })
        s.rows r hmem
      rw [if_pos rfl] at him
      exact him
    · obtain ⟨r', hr', hrid, hrproc⟩ := h.fProc p he
      have hne : r'.id ≠ r.id := by
        intro hcontra
        have hre : r' = r := row_eq_of_id s.rows h.keys r' r hr' hmem hcontra
        rw [hre, hpend] at hrproc
        exact Status.noConfusion hrproc
      exact ⟨r', mem_supdate_of_ne _ _ _ r' hr' hne, hrid, hrproc⟩
  · simp only [List.map_cons]
    exact List.nodup_cons.mpr ⟨by simpa using hnotinf, h.infNodup⟩

theorem eligCnt_claimRow (s : SqState) (r : SqRow) (h : DriveCore s)
    (hr : getNextPendingJob s.rows s.now = some r) :
    eligCnt s.now (claimRow r s).rows + 1 = eligCnt s.now s.rows := by
  obtain ⟨hmem, helig⟩ := getNextPendingJob_spec _ _ _ hr
  exact eligCnt_supdate_claimed s.now r.id _ s.rows h.keys r hmem rfl helig
    (eligible_eq_false_of_not_pending _ _ (fun hc => Status.noConfusion hc))

theorem eligIds_claimRow (s : SqState) (r : SqRow) (h : DriveCore s)
    (hr : getNextPendingJob s.rows s.now = some r) :
    ∀ id' ∈ eligIds s.now s.rows,
      id' = r.id ∨ id' ∈ eligIds s.now (claimRow r s).rows := by
  obtain ⟨hmem, helig⟩ := getNextPendingJob_spec _ _ _ hr
  exact eligIds_supdate_claimed s.now r.id _ s.rows h.keys r hmem rfl
    (eligible_eq_false_of_not_pending _ _ (fun hc => Status.noConfusion hc))

theorem sendLog_mono_sqProcessNext (s : SqState) (x : ℕ)
    (hx : x ∈ s.sendLog) : x ∈ (sqProcessNext s).sendLog := by
  rw [sqProcessNext]
  by_cases h1 : ¬s.isRunning ∨ s.isPaused
  · rwa [if_pos h1]
  rw [if_neg h1]
  by_cases h2 : s.config.concurrency ≤ s.activeCount
  · rwa [if_pos h2]
  rw [if_neg h2]
  split
  next => exact hx
  next r hr => exact List.mem_cons_of_mem _ hx

theorem driveStep_cons (s : SqState) (id k : ℕ) (rest : List (ℕ × ℕ))
    (h : s.inflight = (id, k) :: rest) :
    driveStep s = sqExec (.sendOk id) s := by
  rw [driveStep.eq_def, h]

theorem driveStep_nil (s : SqState) (h : s.inflight = []) : driveStep s = s := by
  rw [driveStep.eq_def, h]

theorem sendLog_mono_driveStep (s : SqState) (x : ℕ)
    (hx : x ∈ s.sendLog) : x ∈ (driveStep s).sendLog := by
  cases hinf : s.inflight with
  | nil => rwa [driveStep_nil s hinf]
  | cons p rest =>
      obtain ⟨jid, k⟩ := p
      rw [driveStep_cons s jid k rest hinf, sqExec,
        if_pos ⟨(jid, k), by rw [hinf]; exact List.mem_cons_self _ _, rfl⟩]
      exact sendLog_mono_sqProcessNext _ x hx

theorem sendLog_mono_drive (n : ℕ) :
    ∀ (s : SqState) (x : ℕ), x ∈ s.sendLog → x ∈ (drive n s).sendLog := by
  induction n with
  | zero => exact fun s x hx => hx
  | succ m ih => exact fun s x hx => ih _ x (sendLog_mono_driveStep s x hx)

theorem eligCnt_pos_of_mem_eligIds (now : ℕ) (rows : List SqRow) (id : ℕ)
    (h : id ∈ eligIds now rows) : 0 < eligCnt now rows := by
  rw [eligIds] at h
  rcases List.mem_map.mp h with ⟨r, hr, _⟩
  rw [eligCnt]
  exact List.length_pos_of_mem hr

theorem driveStep_resolved (s : SqState) (jid k : ℕ) (rest : List (ℕ × ℕ))
    (hinf : s.inflight = (jid, k) :: rest) (h : DriveCore s) :
    driveStep s = sqProcessNext (resolveHead jid rest s) ∧
    DriveCore (resolveHead jid rest s) ∧
    (resolveHead jid rest s).rows.filter (eligible s.now) =
      s.rows.filter (eligible s.now) := by
  obtain ⟨rh, hrh, hrhid, hrhproc⟩ :=
    h.fProc (jid, k) (by rw [hinf]; exact List.mem_cons_self _ _)
  have hnodup := h.infNodup
  rw [hinf] at hnodup
  simp only [List.map_cons, List.nodup_cons] at hnodup
  have hact1 : 1 ≤ s.activeCount := by
    rw [h.act, hinf]
    simp
  refine ⟨?_, ?_, ?_⟩
  · rw [driveStep_cons s jid k rest hinf, sqExec,
      if_pos ⟨(jid, k), by rw [hinf]; exact List.mem_cons_self _ _, rfl⟩,
      hinf, premove_head, resolveHead]
  · refine ⟨?_, h.run, h.np, ?_, ?_, ?_, ?_⟩
    · show ((supdate jid _ s.rows).map SqRow.id).Nodup
      rw [supdate_ids]
      · exact h.keys
      · intro row
        rfl
    · show s.activeCount - 1 = rest.length
      rw [h.act, hinf]
      simp
    · show s.activeCount - 1 ≤ s.config.concurrency
      have := h.actLe
      omega
    · intro p hp
      have hp' : p ∈ s.inflight := by
        rw [hinf]
        exact List.mem_cons_of_mem _ hp
      obtain ⟨r', hr', hrid', hrproc'⟩ := h.fProc p hp'
      have hpne : p.1 ≠ jid := by
        intro hc
        exact hnodup.1 (hc ▸ List.mem_map.mpr ⟨p, hp, rfl⟩)
      have hne : r'.id ≠ jid := by
        rw [hrid']
        exact hpne
      exact ⟨r', mem_supdate_of_ne _ _ _ r' hr' hne, hrid', hrproc'⟩
    · exact hnodup.2
  · refine eligFilter_supdate_invariant s.now jid _ s.rows ?_
    intro row hrow hrid
    have hre : row = rh :=
      row_eq_of_id s.rows h.keys row rh hrow hrh (by rw [hrid, hrhid])
    constructor
    · rw [hre]
      exact eligible_eq_false_of_not_pending _ _
        (by rw [hrhproc]; exact fun hc => Status.noConfusion hc)
    · exact eligible_eq_false_of_not_pending _ _ (fun hc => Status.noConfusion hc)

/-- Driving the settled running queue dispatches every eligible row: its id
enters the Sender log within `eligible + in-flight` many resolutions. -/
theorem drive_dispatches : ∀ (n : ℕ) (s : SqState), DriveCore s →
    (0 < eligCnt s.now s.rows → s.inflight ≠ []) →
    eligCnt s.now s.rows + s.inflight.length ≤ n →
    ∀ id, id ∈ eligIds s.now s.rows → id ∈ (drive n s).sendLog := by
  intro n
  induction n with
  | zero =>
      intro s _ _ hb id hid
      have := eligCnt_pos_of_mem_eligIds s.now s.rows id hid
      omega
  | succ m ih =>
      intro s h hset hb id hid
      cases hinf : s.inflight with
      | nil =>
          exact absurd hinf
            (hset (eligCnt_pos_of_mem_eligIds s.now s.rows id hid))
      | cons p rest =>
          obtain ⟨jid, k⟩ := p
          obtain ⟨hstep, hcore0, hfiltereq⟩ := driveStep_resolved s jid k rest hinf h
          have hecnt0 : eligCnt (resolveHead jid rest s).now
              (resolveHead jid rest s).rows = eligCnt s.now s.rows := by
            rw [eligCnt, eligCnt]
            exact congrArg List.length hfiltereq
          have heids0 : eligIds (resolveHead jid rest s).now
              (resolveHead jid rest s).rows = eligIds s.now s.rows := by
            rw [eligIds, eligIds]
            exact congrArg (List.map SqRow.id) hfiltereq
          have hact1 : 1 ≤ s.activeCount := by
            rw [h.act, hinf]
            simp
          have hpos : 0 < eligCnt s.now s.rows :=
            eligCnt_pos_of_mem_eligIds s.now s.rows id hid
          show id ∈ (drive m (driveStep s)).sendLog
          rw [hstep]
          rcases sqProcessNext_char (resolveHead jid rest s) h.run h.np with
            ⟨hsat, heq⟩ | ⟨hlt, hz, heq⟩ | ⟨hlt, r, hr, heq⟩
          · exfalso
            have hsat' : s.config.concurrency ≤ s.activeCount - 1 := hsat
            have := h.actLe
            omega
          · exfalso
            rw [hecnt0] at hz
            omega
          · rw [heq]
            have hcore1 := driveCore_claimRow _ r hcore0 hr hlt
            have hcl := eligCnt_claimRow _ r hcore0 hr
            rw [hecnt0] at hcl
            have hlen : s.inflight.length = rest.length + 1 := by
              rw [hinf]
              rfl
            rcases eligIds_claimRow _ r hcore0 hr id (by rw [heids0]; exact hid)
              with hcase | hcase
            · rw [hcase]
              exact sendLog_mono_drive m _ _ (List.mem_cons_self _ _)
            · refine ih _ hcore1 (fun _ => ?_) ?_ id hcase
              · show (r.id, r.attempts) :: (resolveHead jid rest s).inflight ≠ []
                exact List.cons_ne_nil _ _
              · have hlen1 : (claimRow r (resolveHead jid rest s)).inflight.length =
                    rest.length + 1 := by
                  show ((r.id, r.attempts) :: rest).length = rest.length + 1
                  rfl
                have hnow : (claimRow r (resolveHead jid rest s)).now =
                    (resolveHead jid rest s).now := rfl
                rw [hlen1, hnow]
                omega

theorem sqPNT_id_of_elig_zero (m : ℕ) :
    ∀ s : SqState, eligCnt s.now s.rows = 0 → sqProcessNextTimes m s = s := by
  induction m with
  | zero => exact fun s _ => rfl
  | succ n ih =>
      intro s he
      rw [sqProcessNextTimes, sqProcessNext_id_of_elig_zero s he]
      exact ih s he

theorem sendLog_mono_sqPNT (m : ℕ) :
    ∀ (s : SqState) (x : ℕ), x ∈ s.sendLog → x ∈ (sqProcessNextTimes m s).sendLog := by
  induction m with
  | zero => exact fun s x hx => hx
  | succ n ih => exact fun s x hx => ih _ x (sendLog_mono_sqProcessNext s x hx)

/-- Running `processNext` `m` times from a running state either saturates
the worker fan-out (or runs out of iterations) or exhausts the eligible
rows. -/
theorem sqPNT_props (m : ℕ) :
    ∀ s : SqState, DriveCore s →
      DriveCore (sqProcessNextTimes m s) ∧
      (min s.config.concurrency (s.activeCount + m) ≤
          (sqProcessNextTimes m s).activeCount ∨
        eligCnt (sqProcessNextTimes m s).now (sqProcessNextTimes m s).rows = 0) := by
  induction m with
  | zero =>
      intro s h
      refine ⟨h, Or.inl ?_⟩
      show min s.config.concurrency (s.activeCount + 0) ≤ s.activeCount
      omega
  | succ n ih =>
      intro s h
      rw [sqProcessNextTimes]
      rcases sqProcessNext_char s h.run h.np with
        ⟨hsat, heq⟩ | ⟨hlt, hz, heq⟩ | ⟨hlt, r, hr, heq⟩
      · rw [heq]
        obtain ⟨hcore, hdisj⟩ := ih s h
        refine ⟨hcore, ?_⟩
        rcases hdisj with hd | hd
        · exact Or.inl (by omega)
        · exact Or.inr hd
      · rw [heq, sqPNT_id_of_elig_zero n s hz]
        exact ⟨h, Or.inr hz⟩
      · rw [heq]
        obtain ⟨hcore, hdisj⟩ := ih _ (driveCore_claimRow s r h hr hlt)
        refine ⟨hcore, ?_⟩
        rcases hdisj with hd | hd
        · left
          have hconf : (claimRow r s).config = s.config := rfl
          have hact : (claimRow r s).activeCount = s.activeCount + 1 := rfl
          rw [hconf, hact] at hd
          omega
        · exact Or.inr hd

/-- Through the start-up dispatch burst, every eligible id is either already
dispatched (in the Sender log) or still eligible. -/
theorem sqPNT_track (m : ℕ) :
    ∀ s : SqState, DriveCore s → ∀ id ∈ eligIds s.now s.rows,
      id ∈ (sqProcessNextTimes m s).sendLog ∨
      id ∈ eligIds (sqProcessNextTimes m s).now (sqProcessNextTimes m s).rows := by
  induction m with
  | zero => exact fun s _ id hid => Or.inr hid
  | succ n ih =>
      intro s h id hid
      rw [sqProcessNextTimes]
      rcases sqProcessNext_char s h.run h.np with
        ⟨hsat, heq⟩ | ⟨hlt, hz, heq⟩ | ⟨hlt, r, hr, heq⟩
      · rw [heq]
        exact ih s h id hid
      · rw [heq]
        exact ih s h id hid
      · rw [heq]
        rcases eligIds_claimRow s r h hr id hid with hcase | hcase
        · left
          rw [hcase]
          exact sendLog_mono_sqPNT n _ _ (List.mem_cons_self _ _)
        · exact ih _ (driveCore_claimRow s r h hr hlt) id hcase

/-! ### Crash-recovery lemmas (C5) -/

theorem restore_resets (rows : List SqRow) :
    ∀ r ∈ rows, (r.status = .processing ∨ r.status = .retrying) →
      { r with status := Status.pending } ∈ restoreInterruptedJobs rows := by
  intro r hr hstat
  rw [restoreInterruptedJobs]
  exact List.mem_map.mpr ⟨r, hr, by rw [if_pos hstat]⟩

theorem restore_no_interrupted (rows : List SqRow) :
    ∀ r ∈ restoreInterruptedJobs rows,
      r.status ≠ .processing ∧ r.status ≠ .retrying := by
  intro r hr
  rw [restoreInterruptedJobs] at hr
  rcases List.mem_map.mp hr with ⟨row, hrow, heq⟩
  by_cases hs : row.status = .processing ∨ row.status = .retrying
  · rw [if_pos hs] at heq
    rw [← heq]
    exact ⟨fun hc => Status.noConfusion hc, fun hc => Status.noConfusion hc⟩
  · rw [if_neg hs] at heq
    rw [← heq]
    push_neg at hs
    exact hs

theorem restore_keeps (rows : List SqRow) (r : SqRow) (hr : r ∈ rows)
    (hs : ¬(r.status = .processing ∨ r.status = .retrying)) :
    r ∈ restoreInterruptedJobs rows := by
  rw [restoreInterruptedJobs]
  exact List.mem_map.mpr ⟨r, hr, by rw [if_neg hs]⟩

theorem cleanup_keeps (cutoff : ℕ) (rows : List SqRow) (r : SqRow)
    (hr : r ∈ rows) (hs : r.status ≠ .completed ∧ r.status ≠ .failed) :
    r ∈ cleanupOldJobs cutoff rows := by
  rw [cleanupOldJobs]
  refine List.mem_filter.mpr ⟨hr, ?_⟩
  simp [hs.1, hs.2]

theorem eligible_of_pending (now : ℕ) (r : SqRow) (hp : r.status = .pending)
    (hs : schedElapsed now r) : eligible now r = true := by
  rw [eligible]
  cases hsf : r.scheduledFor with
  | none => simp [hp]
  | some t => simp [hp, hs t hsf]

/-- C1, counterexample: claiming is NOT a single atomic read-modify query.
Executing the query that selects the eligible row
(`getNextPendingJob`'s SELECT) returns the row still in `pending` status
and leaves the stored table unchanged — the flip to `processing` is a
separate UPDATE statement issued afterwards in `processJob`. -/
theorem select_is_not_the_flip :
    (runGetNextPendingJob (sqRun [.add 0 none]
        (sqInit (mergeOptions {}) [] 0 5))).1 = some (mkPendingRow 0 3 5 none) ∧
    (runGetNextPendingJob (sqRun [.add 0 none]
        (sqInit (mergeOptions {}) [] 0 5))).2 = [mkPendingRow 0 3 5 none] ∧
    (mkPendingRow 0 3 5 none).status = .pending := by
  refine ⟨by decide, by decide, by decide⟩

/-- C1, amended: claiming a job is a SELECT followed by a separate UPDATE,
but both run in the same synchronous event-loop segment with no `await`
between them, so with respect to the worker fan-out claiming is atomic: for
every command sequence on the durable backend (empty initial store), every
row's Sender-invocation count equals its `attempts` — no job is ever
dispatched twice for the same attempt — and the claim only ever selects a
row whose stored status is `pending`. -/
theorem no_duplicate_dispatch (config : QueueConfig) (cutoff now : ℕ)
    (cmds : List SqCmd) :
    (∀ r ∈ (sqRun cmds (sqInit config [] cutoff now)).rows,
        cnt r.id (sqRun cmds (sqInit config [] cutoff now)).sendLog = r.attempts) ∧
    (∀ (rows : List SqRow) (t : ℕ) (r : SqRow), getNextPendingJob rows t = some r →
        r.status = .pending) := by
  constructor
  · exact (sqInv_run cmds _ (sqInv_init_empty config cutoff now)).log
  · intro rows t r hr
    exact eligible_pending t r (getNextPendingJob_spec rows t r hr).2

/-- Witness for `no_duplicate_dispatch`: one job added and started — its id
is logged exactly once with `attempts = 1`. -/
theorem no_duplicate_dispatch_witness :
    cnt claimedRow0.id
        (sqRun [.add 0 none, .start] (sqInit (mergeOptions {}) [] 0 5)).sendLog =
      claimedRow0.attempts ∧
    (mkPendingRow 0 3 5 none).status = .pending :=
  ⟨(no_duplicate_dispatch (mergeOptions {}) 0 5 [.add 0 none, .start]).1
      claimedRow0 (by decide),
    (no_duplicate_dispatch (mergeOptions {}) 0 5 []).2 [mkPendingRow 0 3 5 none] 5
      (mkPendingRow 0 3 5 none) (by decide)⟩

/-! ### C7 — clear() semantics -/

/-- C7, counterexample: a reachable in-memory state (concurrency 1: one job
in flight, a second job's retry timer fired while the engine was saturated)
in which the `pending` array holds the id of a job whose status is still
`retrying`.  `clear()` returns the array length 1 yet deletes 0 jobs, so
"returns the number of jobs it deleted" fails. -/
theorem memory_clear_count_mismatch :
    (memClear (memRun [.add 0 none, .add 1 none, .start, .sendFail 0, .retryFire 0]
        (memInit (mergeOptions { concurrency := some 1 }) 0))).2 = 1 ∧
    memClearDeleted (memRun [.add 0 none, .add 1 none, .start, .sendFail 0, .retryFire 0]
        (memInit (mergeOptions { concurrency := some 1 }) 0)) = 0 := by
  refine ⟨by decide, by decide⟩

theorem sq_filter_partition (l : List SqRow) :
    (l.filter fun r => r.status = .pending).length +
      (l.filter fun r => r.status ≠ .pending).length = l.length := by
  induction l with
  | nil => rfl
  | cons r t ih =>
      by_cases hr : r.status = .pending
      · rw [List.filter_cons_of_pos (by simpa using hr),
          List.filter_cons_of_neg (by simpa using hr)]
        simp only [List.length_cons]
        omega
      · rw [List.filter_cons_of_neg (by simpa using hr),
          List.filter_cons_of_pos (by simpa using hr)]
        simp only [List.length_cons]
        omega

/-- C7, amended: on the durable backend `clear()` deletes exactly the rows
in `pending` status and returns precisely the number deleted, leaving every
other row in place.  On the in-memory backend `clear()` deletes exactly the
jobs whose status is `pending` but returns the length of its internal
pending-id array; the two agree whenever the array is in sync with the
status-`pending` set (as in the 3-pending/1-completed scenario), but can
differ in reachable states where a retry timer has re-queued a
still-`retrying` job or a scheduled job sleeps outside the array.  Jobs in
other statuses are never deleted. -/
theorem clear_deletes_exactly_pending (s : SqState) (m : MemState)
    (hk : (m.jobs.map Prod.fst).Nodup) (hnd : m.pending.Nodup)
    (hsync1 : ∀ id ∈ m.pending, statusOf id m = some .pending)
    (hsync2 : ∀ p ∈ m.jobs, p.2.status = .pending → p.1 ∈ m.pending) :
    ((∀ r, r ∈ (sqClear s).1.rows ↔ r ∈ s.rows ∧ r.status ≠ .pending) ∧
      (sqClear s).2 + (sqClear s).1.rows.length = s.rows.length) ∧
    ((memClear m).2 = memClearDeleted m ∧
      ∀ id j, jfind id m.jobs = some j → j.status ≠ .pending →
        jfind id (memClear m).1.jobs = some j) := by
  refine ⟨⟨?_, ?_⟩, ?_, ?_⟩
  · intro r
    rw [sqClear]
    simp [List.mem_filter]
  · exact sq_filter_partition s.rows
  · -- pending array length = number of status-pending jobs
    rw [memClear, memClearDeleted]
    simp only
    have hsub1 : m.pending ⊆
        ((m.jobs.filter fun p => p.2.status = .pending).map Prod.fst) := by
      intro id hid
      have hst := hsync1 id hid
      rw [statusOf] at hst
      cases hj : jfind id m.jobs with
      | none => rw [hj] at hst; exact absurd hst (by simp)
      | some j =>
          rw [hj] at hst
          have hstat : j.status = .pending := by
            simpa using hst
          have hmem : (id, j) ∈ m.jobs := jfind_mem id j m.jobs hj
          exact List.mem_map.mpr ⟨(id, j),
            List.mem_filter.mpr ⟨hmem, by simpa using hstat⟩, rfl⟩
    have hsub2 : ((m.jobs.filter fun p => p.2.status = .pending).map Prod.fst) ⊆
        m.pending := by
      intro id hid
      rcases List.mem_map.mp hid with ⟨⟨k, j⟩, hmem, hfst⟩
      have hk' : k = id := hfst
      subst hk'
      have hstat : j.status = .pending := by
        have := List.of_mem_filter hmem
        simpa using this
      exact hsync2 (k, j) (List.mem_of_mem_filter hmem) hstat
    have h1 := (hnd.subperm hsub1).length_le
    have h2 := ((filter_keys_nodup _ _ hk).subperm hsub2).length_le
    rw [List.length_map] at h1 h2
    omega
  · intro id j hfind hstat
    rw [memClear]
    simp only
    rw [jfind_filter id _ _ hk, hfind]
    simp [hstat]

/-- Witness for `clear_deletes_exactly_pending`: the spec's scenario — 3
pending jobs and 1 completed job; `clear()` returns 3, deletes the 3 pending
jobs, and the completed job remains retrievable. -/
theorem clear_deletes_exactly_pending_witness :
    (memClear threePendingOneCompleted).2 = 3 ∧
    (memClear threePendingOneCompleted).1.jobs =
      [(3, { status := .completed, attempts := 1, maxRetries := 3,
             scheduledFor := none })] := by
  have h := clear_deletes_exactly_pending
    (sqInit (mergeOptions {}) [] 0 0) threePendingOneCompleted
    (by decide) (by decide) (by decide) (by decide)
  refine ⟨?_, by decide⟩
  rw [h.2.1]
  decide

/-- C3, counterexample: with the default options (no explicit concurrency
parameter), adding two jobs and starting the in-memory queue leaves TWO jobs
in `processing` (both sends in flight at once): the in-memory backend does
not enforce single-job-at-a-time processing. -/
theorem memory_queue_overlapping_sends :
    1 < processingCount (memRun [.add 0 none, .add 1 none, .start]
      (memInit (mergeOptions {}) 0)) := by decide

/-- C3, amended: the in-memory backend, like the durable one, runs up to
`concurrency` sends at once (default `concurrency = 5`): for every command
sequence, at most `concurrency` jobs are in `processing` at any time.
Single-job-at-a-time holds only when the caller passes `concurrency: 1`. -/
theorem memory_processing_at_most_concurrency (options : QueueOptions)
    (now : ℕ) (cmds : List MemCmd) :
    processingCount (memRun cmds (memInit (mergeOptions options) now)) ≤
      (mergeOptions options).concurrency ∧
    (mergeOptions {}).concurrency = 5 := by
  constructor
  · have hinv := memInv_run cmds _ (memInv_init (mergeOptions options) now)
    have hle := processingCount_le_concurrency _ hinv
    rwa [config_memRun] at hle
  · rfl

/-- Witness for `zero_total_batch_never_completes`: batch `"b"` with
`total = 0`, while another batch `"other"` runs to completion. -/
theorem zero_total_batch_never_completes_witness :
    hasBatch "b" (monitorRun [.start "other" 1, .recSuccess "other"]
      (startBatch "b" 0 MonitorState.init)) = true ∧
    (∀ e ∈ (monitorRun [.start "other" 1, .recSuccess "other"]
        (startBatch "b" 0 MonitorState.init)).events,
      isCompletionFor "b" e = true → e ∈ MonitorState.init.events) ∧
    addBatchRegisteredTotal ([] : List ℕ) = 0 :=
  zero_total_batch_never_completes "b" MonitorState.init
    [.start "other" 1, .recSuccess "other"] (by decide)

/-- C5: on the durable backend, constructing a queue over a store containing
rows with status `processing` or `retrying` resets every such row to
`pending` (the constructor and every `start()` run `restoreInterruptedJobs`),
no row remains `processing` or `retrying` after the restore, and each such
row — once due — re-enters the eligible pool and is eventually dispatched:
after `start()`, driving the queue (resolving each in-flight send, whose
`finally` claims the next eligible row) records the row's id in the Sender
log within `rows + concurrency` resolution steps. -/
theorem recovery_restores_and_dispatches (config : QueueConfig)
    (rows₀ : List SqRow) (cutoff now : ℕ)
    (hk : (rows₀.map SqRow.id).Nodup) (hconc : 1 ≤ config.concurrency) :
    (∀ r ∈ rows₀, (r.status = .processing ∨ r.status = .retrying) →
        { r with status := Status.pending } ∈ restoreInterruptedJobs rows₀) ∧
    (∀ r ∈ restoreInterruptedJobs rows₀,
        r.status ≠ .processing ∧ r.status ≠ .retrying) ∧
    (∀ r ∈ rows₀, (r.status = .processing ∨ r.status = .retrying) →
        schedElapsed now r →
        r.id ∈ (drive
            ((sqExec .start (sqInit config rows₀ cutoff now)).rows.length +
              config.concurrency)
            (sqExec .start (sqInit config rows₀ cutoff now))).sendLog) := by
  refine ⟨restore_resets rows₀, restore_no_interrupted rows₀, ?_⟩
  intro r hr hstat hsched
  have hstart : sqExec .start (sqInit config rows₀ cutoff now) =
      sqProcessNextTimes config.concurrency
        (startRecovery config rows₀ cutoff now) := rfl
  rw [hstart]
  have hsub1 : (cleanupOldJobs cutoff (restoreInterruptedJobs rows₀)).Sublist
      (restoreInterruptedJobs rows₀) := by
    rw [cleanupOldJobs]
    exact List.filter_sublist _
  have hk0 : ((cleanupOldJobs cutoff (restoreInterruptedJobs rows₀)).map
      SqRow.id).Nodup := by
    have h1 : ((restoreInterruptedJobs rows₀).map SqRow.id).Nodup := by
      rw [restore_ids]
      exact hk
    exact h1.sublist (hsub1.map SqRow.id)
  have hcore : DriveCore (startRecovery config rows₀ cutoff now) := by
    refine ⟨?_, rfl, rfl, rfl, Nat.zero_le _, ?_, ?_⟩
    · show ((restoreInterruptedJobs
          (sqInit config rows₀ cutoff now).rows).map SqRow.id).Nodup
      rw [restore_ids]
      exact hk0
    · exact fun p hp => absurd hp (List.not_mem_nil p)
    · exact List.nodup_nil
  have hmem0 : { r with status := Status.pending } ∈
      restoreInterruptedJobs rows₀ := restore_resets rows₀ r hr hstat
  have hmem1 : { r with status := Status.pending } ∈
      cleanupOldJobs cutoff (restoreInterruptedJobs rows₀) :=
    cleanup_keeps cutoff _ _ hmem0
      ⟨fun hc => Status.noConfusion hc, fun hc => Status.noConfusion hc⟩
  have hmem2 : { r with status := Status.pending } ∈
      restoreInterruptedJobs (sqInit config rows₀ cutoff now).rows :=
    restore_keeps _ _ hmem1
      (fun hc => hc.elim (fun h1 => Status.noConfusion h1)
        (fun h2 => Status.noConfusion h2))
  have helig : eligible now { r with status := Status.pending } = true :=
    eligible_of_pending now _ rfl (fun t ht => hsched t ht)
  have hid : r.id ∈ eligIds (startRecovery config rows₀ cutoff now).now
      (startRecovery config rows₀ cutoff now).rows := by
    rw [eligIds]
    exact List.mem_map.mpr ⟨{ r with status := Status.pending },
      List.mem_filter.mpr ⟨hmem2, helig⟩, rfl⟩
  obtain ⟨hcore1, hdisj⟩ :=
    sqPNT_props config.concurrency (startRecovery config rows₀ cutoff now) hcore
  set s1 := sqProcessNextTimes config.concurrency
    (startRecovery config rows₀ cutoff now) with hs1
  have hconf1 : s1.config = config :=
    (sqProcessNextTimes_const config.concurrency _).1
  have hsettled : 0 < eligCnt s1.now s1.rows → s1.inflight ≠ [] := by
    intro hpos
    cases hdisj with
    | inr h0 => exact absurd h0 (by omega)
    | inl hmin =>
        have h2 : (startRecovery config rows₀ cutoff now).activeCount = 0 := rfl
        have h3 : (startRecovery config rows₀ cutoff now).config.concurrency
            = config.concurrency := rfl
        rw [h2, h3] at hmin
        have h4 : s1.activeCount ≤ s1.config.concurrency := hcore1.actLe
        rw [hconf1] at h4
        have h5 : s1.activeCount = s1.inflight.length := hcore1.act
        intro hnil
        rw [hnil] at h5
        simp at h5
        omega
  have hbound : eligCnt s1.now s1.rows + s1.inflight.length ≤
      s1.rows.length + config.concurrency := by
    have h1 : eligCnt s1.now s1.rows ≤ s1.rows.length :=
      List.length_filter_le _ _
    have h4 : s1.activeCount ≤ s1.config.concurrency := hcore1.actLe
    rw [hconf1] at h4
    have h5 : s1.activeCount = s1.inflight.length := hcore1.act
    omega
  cases sqPNT_track config.concurrency (startRecovery config rows₀ cutoff now)
      hcore r.id hid with
  | inl hlog => exact sendLog_mono_drive _ s1 r.id hlog
  | inr helig1 => exact drive_dispatches _ s1 hcore1 hsettled hbound r.id helig1

/-- Witness for `recovery_restores_and_dispatches`: a store holding one row
stuck in `processing`; after `start()` and one resolution burst its id is in
the Sender log. -/
theorem recovery_restores_and_dispatches_witness :
    interruptedRow.id ∈ (drive
        ((sqExec .start
            (sqInit (mergeOptions {}) [interruptedRow] 0 5)).rows.length +
          (mergeOptions {}).concurrency)
        (sqExec .start (sqInit (mergeOptions {}) [interruptedRow] 0 5))).sendLog :=
  (recovery_restores_and_dispatches (mergeOptions {}) [interruptedRow] 0 5
      (by decide) (by decide)).2.2 interruptedRow (List.mem_cons_self _ _)
    (Or.inl rfl) (fun t ht => Option.noConfusion ht)

end EmailManager
